import Mathlib

/-!
Verification of the webtk merge/assembly pipeline: name canonicalization,
SVG root extraction and id rewriting, symbol-sprite construction, the
output-mode decision logic with its temporary-cache lifecycle, and the
deletion guard.  Pure string functions are embedded over `List Char`
(a `String` is its list of characters); byte-based measures of the original
use `Char.utf8Size`.  Filesystem-effecting operations are embedded as
state-passing functions that also return the ordered trace of filesystem
mutations they perform, with the external tool and filesystem outcomes
supplied by an explicit environment.
-/

/-- ASCII alphanumeric test, as `char::is_ascii_alphanumeric`. -/
def isAsciiAlphanumeric (c : Char) : Bool :=
  ('0' ≤ c && c ≤ '9') || ('A' ≤ c && c ≤ 'Z') || ('a' ≤ c && c ≤ 'z')

/-- The character-by-character loop of `canonicalize_name`
(src/support/strings.rs): alphanumerics pass through, every maximal run of
other characters becomes one dash, tracked by the `prev_was_dash` flag. -/
def canonLoop : List Char → Bool → List Char
  | [], _ => []
  | c :: rest, prevDash =>
    if isAsciiAlphanumeric c then c :: canonLoop rest false
    else if prevDash then canonLoop rest true
    else '-' :: canonLoop rest true

/-- Removes the maximal trailing run of characters satisfying `p`. -/
def dropTrailing (p : Char → Bool) : List Char → List Char
  | [] => []
  | c :: rest =>
    let r := dropTrailing p rest
    if r.isEmpty then (if p c then [] else [c]) else c :: r

/-- The `trim_matches('-')` step: strip leading and trailing dashes. -/
def trimDashes (l : List Char) : List Char :=
  dropTrailing (fun c => c == '-') (l.dropWhile (fun c => c == '-'))

/-- Embeds `canonicalize_name` (src/support/strings.rs). -/
def canonicalize_name (s : String) : String :=
  String.mk (trimDashes (canonLoop s.data false))

/-- Every character is an ASCII alphanumeric or a dash. -/
def allCanonChars (l : List Char) : Bool :=
  l.all (fun c => isAsciiAlphanumeric c || c == '-')

/-- No two adjacent characters are both dashes. -/
def noAdjacentDashes : List Char → Bool
  | [] => true
  | [_] => true
  | a :: b :: rest => !(a == '-' && b == '-') && noAdjacentDashes (b :: rest)

/-- The first character, when there is one, is not a dash. -/
def headNotDash : List Char → Bool
  | [] => true
  | c :: _ => !(c == '-')

/-- The last character, when there is one, is not a dash. -/
def lastNotDash : List Char → Bool
  | [] => true
  | [c] => !(c == '-')
  | _ :: c :: rest => lastNotDash (c :: rest)

/-- Unicode White_Space test, as Rust `char::is_whitespace`. -/
def wsChar (c : Char) : Bool :=
  c.toNat = 0x9 || c.toNat = 0xA || c.toNat = 0xB || c.toNat = 0xC || c.toNat = 0xD ||
  c.toNat = 0x20 || c.toNat = 0x85 || c.toNat = 0xA0 || c.toNat = 0x1680 ||
  (0x2000 ≤ c.toNat && c.toNat ≤ 0x200A) ||
  c.toNat = 0x2028 || c.toNat = 0x2029 || c.toNat = 0x202F || c.toNat = 0x205F ||
  c.toNat = 0x3000

/-- Rust `str::trim_start` on a character list. -/
def trimStartL (l : List Char) : List Char := l.dropWhile wsChar

/-- Rust `str::trim` on a character list: strip whitespace at both ends. -/
def trimL (l : List Char) : List Char := dropTrailing wsChar (trimStartL l)

/-- Rust `str::trim` on a string. -/
def strTrim (s : String) : String := String.mk (trimL s.data)

/-- ASCII lowercasing of one character (the format tokens compared by the
export mode decision are ASCII). -/
def toLowerAscii (c : Char) : Char :=
  if 'A' ≤ c && c ≤ 'Z' then Char.ofNat (c.toNat + 32) else c

/-- Rust `str::to_lowercase`, restricted to its ASCII behaviour. -/
def strToLower (s : String) : String := String.mk (s.data.map toLowerAscii)

/-- Whether `l` starts with `pre`. -/
def startsWithL : List Char → List Char → Bool
  | [], _ => true
  | _ :: _, [] => false
  | a :: as, b :: bs => a == b && startsWithL as bs

/-- Whether `needle` occurs as a contiguous segment of `hay`,
as Rust `str::contains` with a string pattern. -/
def containsSubL (hay needle : List Char) : Bool :=
  startsWithL needle hay ||
    match hay with
    | [] => false
    | _ :: rest => containsSubL rest needle

/-- Rust `str::contains` with a string pattern. -/
def strContainsSub (s sub : String) : Bool := containsSubL s.data sub.data

/-- Number of occurrences of character `c`, as `str::matches(c).count()`. -/
def countCharL (c : Char) : List Char → Nat
  | [] => 0
  | a :: rest => (if a == c then 1 else 0) + countCharL c rest

/-- Splits on newline characters, keeping every (possibly empty) part. -/
def splitNL : List Char → List (List Char)
  | [] => [[]]
  | c :: rest =>
    if c = '\n' then [] :: splitNL rest
    else
      match splitNL rest with
      | [] => [[c]]
      | l :: ls => (c :: l) :: ls

/-- Rust `str::lines` on a character list: split on `\n`, drop the final
empty segment produced by a trailing newline, strip one trailing `\r`. -/
def linesOf (l : List Char) : List (List Char) :=
  if l = [] then []
  else
    let parts := splitNL l
    let parts := if parts.getLast? = some [] then parts.dropLast else parts
    parts.map (fun line => if line.getLast? = some '\r' then line.dropLast else line)

/-- Joins lines with a single newline, as `Vec::join("\n")`. -/
def joinNL : List (List Char) → List Char
  | [] => []
  | [x] => x
  | x :: rest => x ++ '\n' :: joinNL rest

/-- A run of `n` spaces, as `" ".repeat(n)`. -/
def spacesL (n : Nat) : List Char := List.replicate n ' '

/-- The UTF-8 byte length of a character list, as Rust `str::len`. -/
def strLenB : List Char → Nat
  | [] => 0
  | c :: rest => c.utf8Size + strLenB rest

/-- The byte length of a line's leading whitespace:
`line.len() - line.trim_start().len()` from `indent_content`. -/
def indentB (l : List Char) : Nat := strLenB l - strLenB (trimStartL l)

/-- Minimum of a list of naturals, with `0` for the empty list,
as `Iterator::min().unwrap_or(0)`. -/
def listMin : List Nat → Nat
  | [] => 0
  | [x] => x
  | x :: rest => min x (listMin rest)

/-- An XML tree node, as `xmltree::XMLNode`: element (name, attribute map in
document order, children), text, CDATA, comment, or processing instruction. -/
inductive XMLNode where
  | element (name : String) (attributes : List (String × String)) (children : List XMLNode)
  | text (s : String)
  | cdata (s : String)
  | comment (s : String)
  | procInst (target : String) (data : Option String)

/-- First-match lookup in an attribute map, as `attributes.get(name)`. -/
def getAttr (key : String) : List (String × String) → Option String
  | [] => none
  | (k, v) :: rest => if k = key then some v else getAttr key rest

/-- Replaces the binding of `key` (inserting at the end when absent), keeping
the position of an existing binding, as `attributes.insert(key, val)`. -/
def insertAttr (key val : String) : List (String × String) → List (String × String)
  | [] => [(key, val)]
  | (k, v) :: rest => if k = key then (k, val) :: rest else (k, v) :: insertAttr key val rest

mutual

/-- Embeds `transform_element_ids_recursive` (src/support/xmls.rs), lifted to
a node: on an element, rewrite its `id` attribute when present and recurse
into the children; other nodes pass through unchanged. -/
def transformNode (f : String → String) : XMLNode → XMLNode
  | .element name attrs children =>
    let attrs :=
      match getAttr "id" attrs with
      | some v => insertAttr "id" (f v) attrs
      | none => attrs
    .element name attrs (transformNodeList f children)
  | n => n

/-- The child-list walk of `transform_element_ids_recursive`. -/
def transformNodeList (f : String → String) : List XMLNode → List XMLNode
  | [] => []
  | n :: rest => transformNode f n :: transformNodeList f rest

end

/-- Embeds `transform_nodes_id_attributes` (src/support/xmls.rs): transforms
every `id` attribute in every element of the list, at any depth. -/
def transform_nodes_id_attributes (nodes : List XMLNode) (f : String → String) : List XMLNode :=
  transformNodeList f nodes

mutual

/-- The claim-side description of the id rewrite: every element's attribute
list is mapped pointwise, sending an `id` binding to `f` of its value and
keeping every other binding, in order; children are rewritten recursively;
text, CDATA, comments and processing instructions are unchanged. -/
def idSpecNode (f : String → String) : XMLNode → XMLNode
  | .element name attrs children =>
    .element name (attrs.map (fun p => if p.1 = "id" then (p.1, f p.2) else p))
      (idSpecNodeList f children)
  | n => n

/-- The list version of `idSpecNode`. -/
def idSpecNodeList (f : String → String) : List XMLNode → List XMLNode
  | [] => []
  | n :: rest => idSpecNode f n :: idSpecNodeList f rest

end

/-- Whether an attribute list binds no key twice (an XML parser invariant:
an element cannot carry two attributes with one name). -/
def nodupKeys : List (String × String) → Bool
  | [] => true
  | (k, _) :: rest => !(rest.any (fun p => p.1 == k)) && nodupKeys rest

mutual

/-- Every element of the tree has duplicate-free attribute keys. -/
def nodupNode : XMLNode → Bool
  | .element _ attrs children => nodupKeys attrs && nodupNodeList children
  | _ => true

/-- The list version of `nodupNode`. -/
def nodupNodeList : List XMLNode → Bool
  | [] => true
  | n :: rest => nodupNode n && nodupNodeList rest

end

/-- Renders an attribute list as ` k="v"` pairs in document order. -/
def attrsToString : List (String × String) → String
  | [] => ""
  | (k, v) :: rest => " " ++ k ++ "=\"" ++ v ++ "\"" ++ attrsToString rest

mutual

/-- Modelled from the spec: the xml-rs pretty-printing emitter behind
`element_to_string` (src/support/xmls.rs), which is external library code.
Deterministic layout per spec section 4.2: two-space indentation unit, each
node of a non-empty element on its own line, `<name ... />` for an element
without children, no added blank lines. -/
def emitNodeAt (indent : Nat) : XMLNode → String
  | .element name attrs children =>
    let pad := String.mk (List.replicate (2 * indent) ' ')
    if children.isEmpty then
      pad ++ "<" ++ name ++ attrsToString attrs ++ " />"
    else
      pad ++ "<" ++ name ++ attrsToString attrs ++ ">" ++ "\n" ++
        emitChildren (indent + 1) children ++ "\n" ++ pad ++ "</" ++ name ++ ">"
  | .text s => String.mk (List.replicate (2 * indent) ' ') ++ s
  | .cdata s => String.mk (List.replicate (2 * indent) ' ') ++ "<![CDATA[" ++ s ++ "]]>"
  | .comment s => String.mk (List.replicate (2 * indent) ' ') ++ "<!--" ++ s ++ "-->"
  | .procInst t d =>
    String.mk (List.replicate (2 * indent) ' ') ++
      (match d with
       | some dd => "<?" ++ t ++ " " ++ dd ++ "?>"
       | none => "<?" ++ t ++ "?>")

/-- The children of an element, each rendered at the deeper indent, joined
by single newlines. -/
def emitChildren (indent : Nat) : List XMLNode → String
  | [] => ""
  | [n] => emitNodeAt indent n
  | n :: rest => emitNodeAt indent n ++ "\n" ++ emitChildren indent rest

end

/-- Embeds `element_to_string` (src/support/xmls.rs): serialization of one
element with the configured emitter; the embedded emitter is total, so this
always succeeds. -/
def element_to_string (n : XMLNode) : Option String := some (emitNodeAt 0 n)

/-- Embeds `node_to_string` (src/support/xmls.rs). -/
def node_to_string : XMLNode → Option String
  | .element name attrs children => element_to_string (.element name attrs children)
  | .text s => some s
  | .cdata s => some ("<![CDATA[" ++ s ++ "]]>")
  | .comment s => some ("<!--" ++ s ++ "-->")
  | .procInst t (some d) => some ("<?" ++ t ++ " " ++ d ++ "?>")
  | .procInst t none => some ("<?" ++ t ++ "?>")

/-- The accumulation loop of `nodes_to_string`: a newline is inserted before
a rendered node only when the accumulator is non-empty and the rendered node
is not pure whitespace. -/
def nodesToStringLoop : List XMLNode → String → String
  | [], acc => acc
  | n :: rest, acc =>
    match node_to_string n with
    | none => nodesToStringLoop rest acc
    | some s =>
      let acc := if acc ≠ "" ∧ strTrim s ≠ "" then acc ++ "\n" ++ s else acc ++ s
      nodesToStringLoop rest acc

/-- Embeds `nodes_to_string` (src/support/xmls.rs): empty input gives the
empty string, otherwise the accumulated rendering, trimmed. -/
def nodes_to_string (nodes : List XMLNode) : String :=
  if nodes.isEmpty then "" else strTrim (nodesToStringLoop nodes "")

/-- An XML reader event, as `quick_xml::events::Event`: start tag, empty
(self-closing) tag, end tag, text, CDATA, comment, processing instruction. -/
inductive XmlEvent where
  | start (name : String) (attrs : List (String × String))
  | emptyTag (name : String) (attrs : List (String × String))
  | endTag (name : String)
  | text (s : String)
  | cdata (s : String)
  | comment (s : String)
  | procInst (target : String) (data : Option String)

/-- Splits `l` at the first occurrence of `delim`, returning the part before
it and the part after it; `none` when `delim` does not occur. -/
def splitAtSub (delim : List Char) : List Char → Option (List Char × List Char)
  | [] => if delim.isEmpty then some ([], []) else none
  | c :: rest =>
    if startsWithL delim (c :: rest) then some ([], (c :: rest).drop delim.length)
    else
      match splitAtSub delim rest with
      | some (a, b) => some (c :: a, b)
      | none => none

/-- Splits `l` at the first occurrence of the character `c`. -/
def splitAtChar (c : Char) : List Char → Option (List Char × List Char)
  | [] => none
  | a :: rest =>
    if a == c then some ([], rest)
    else
      match splitAtChar c rest with
      | some (x, y) => some (a :: x, y)
      | none => none

/-- A tag-name character: anything but whitespace, `>`, `/` or `=`. -/
def tagNameChar (c : Char) : Bool :=
  !(wsChar c || c == '>' || c == '/' || c == '=')

/-- The single-quote character, written by code point. -/
def singleQuote : Char := Char.ofNat 39

/-- Modelled from the spec: the attribute scan of the external XML readers
(quick-xml and xml-rs, both absent from src): after optional whitespace,
either the tag closes (`>` or `/>`), or one `name="value"` /
`name='value'` attribute is read; anything else is a lexical error. -/
def lexAttrs : Nat → List Char → Option (List (String × String) × Bool × List Char)
  | 0, _ => none
  | fuel + 1, l =>
    match trimStartL l with
    | [] => none
    | c :: rest =>
      if c == '>' then some ([], false, rest)
      else if c == '/' then
        match rest with
        | c2 :: rest2 => if c2 == '>' then some ([], true, rest2) else none
        | [] => none
      else
        let name := (c :: rest).takeWhile tagNameChar
        let after := (c :: rest).dropWhile tagNameChar
        if name.isEmpty then none
        else
          match trimStartL after with
          | eq :: afterEq =>
            if eq == '=' then
              match trimStartL afterEq with
              | q :: afterQ =>
                if q == '"' || q == singleQuote then
                  match splitAtChar q afterQ with
                  | some (v, rest3) =>
                    match lexAttrs fuel rest3 with
                    | some (attrs, isEmptyTag, rest4) =>
                      some ((String.mk name, String.mk v) :: attrs, isEmptyTag, rest4)
                    | none => none
                  | none => none
                else none
              | [] => none
            else none
          | [] => none

/-- Modelled from the spec: one lexical event of the external XML readers.
Returns the event and the remaining input, or `none` on a lexical error
(unterminated construct, `<!DOCTYPE`/`<!` markup, malformed tag). -/
def lexOne (l : List Char) : Option (XmlEvent × List Char)
  :=
  match l with
  | [] => none
  | c :: rest =>
    if c == '<' then
      if startsWithL ("!--".data) rest then
        match splitAtSub ("-->".data) (rest.drop 3) with
        | some (body, rest2) => some (.comment (String.mk body), rest2)
        | none => none
      else if startsWithL ("![CDATA[".data) rest then
        match splitAtSub ("]]>".data) (rest.drop 8) with
        | some (body, rest2) => some (.cdata (String.mk body), rest2)
        | none => none
      else if startsWithL ("!".data) rest then none
      else if startsWithL ("?".data) rest then
        match splitAtSub ("?>".data) (rest.drop 1) with
        | some (body, rest2) =>
          let target := body.takeWhile tagNameChar
          let dataPart := trimStartL (body.dropWhile tagNameChar)
          some (.procInst (String.mk target)
            (if dataPart.isEmpty then none else some (String.mk dataPart)), rest2)
        | none => none
      else if startsWithL ("/".data) rest then
        match splitAtChar '>' (rest.drop 1) with
        | some (nm, rest2) => some (.endTag (String.mk (trimL nm)), rest2)
        | none => none
      else
        let name := rest.takeWhile tagNameChar
        let after := rest.dropWhile tagNameChar
        if name.isEmpty then none
        else
          match lexAttrs (after.length + 1) after with
          | some (attrs, isEmptyTag, rest2) =>
            if isEmptyTag then some (.emptyTag (String.mk name) attrs, rest2)
            else some (.start (String.mk name) attrs, rest2)
          | none => none
    else
      some (.text (String.mk (l.takeWhile (fun a => !(a == '<')))),
            l.dropWhile (fun a => !(a == '<')))

/-- Modelled from the spec: the event stream of the external XML readers over
the whole input: the events read before the end of input or the first
lexical error, paired with whether a lexical error cut the stream short. -/
def lexLoop : Nat → List Char → List XmlEvent × Bool
  | 0, _ => ([], true)
  | _, [] => ([], false)
  | fuel + 1, l =>
    match lexOne l with
    | none => ([], true)
    | some (e, rest) =>
      let (es, err) := lexLoop fuel rest
      (e :: es, err)

/-- The event stream of a document. -/
def lexDocument (s : String) : List XmlEvent × Bool :=
  lexLoop (s.data.length + 1) s.data

/-- The attribute map of a root node (an element), as used by the tree
reader; non-element nodes carry none. -/
def rootAttributes : XMLNode → List (String × String)
  | .element _ attrs _ => attrs
  | _ => []

/-- The children of a root node (an element); non-element nodes carry none. -/
def rootChildren : XMLNode → List XMLNode
  | .element _ _ children => children
  | _ => []

/-- Whether an event may follow the root element (or precede it) in a
well-formed single-root document: comments, processing instructions and
whitespace-only text. -/
def miscEvent : XmlEvent → Bool
  | .comment _ => true
  | .procInst _ _ => true
  | .text s => (trimL s.data).isEmpty
  | _ => false

/-- Whether every event of the list is such trailing/leading misc content. -/
def allMisc : List XmlEvent → Bool
  | [] => true
  | e :: rest => miscEvent e && allMisc rest

/-- Modelled from the spec: the tree builder of `xmltree::Element::parse`
(external library code) over the event stream: parses a sequence of sibling
nodes, stopping (without consuming) at an end tag; a nested element must be
closed by a matching end tag. -/
def parseNodes : Nat → List XmlEvent → Option (List XMLNode × List XmlEvent)
  | 0, _ => none
  | _, [] => some ([], [])
  | fuel + 1, e :: rest =>
    match e with
    | .endTag _ => some ([], e :: rest)
    | .start n a =>
      match parseNodes fuel rest with
      | some (kids, restAfter) =>
        match restAfter with
        | .endTag m :: rest2 =>
          if m = n then
            match parseNodes fuel rest2 with
            | some (sibs, rest3) => some (.element n a kids :: sibs, rest3)
            | none => none
          else none
        | _ => none
      | none => none
    | .emptyTag n a =>
      match parseNodes fuel rest with
      | some (sibs, rest2) => some (.element n a [] :: sibs, rest2)
      | none => none
    | .text s =>
      match parseNodes fuel rest with
      | some (sibs, rest2) => some (.text s :: sibs, rest2)
      | none => none
    | .cdata s =>
      match parseNodes fuel rest with
      | some (sibs, rest2) => some (.cdata s :: sibs, rest2)
      | none => none
    | .comment s =>
      match parseNodes fuel rest with
      | some (sibs, rest2) => some (.comment s :: sibs, rest2)
      | none => none
    | .procInst t d =>
      match parseNodes fuel rest with
      | some (sibs, rest2) => some (.procInst t d :: sibs, rest2)
      | none => none

/-- Modelled from the spec: the root rule of `xmltree::Element::parse`
(external library code): skip leading comments, processing instructions and
whitespace text; then exactly one element, properly closed; after it only
such misc content may remain.  Anything else is a parse failure. -/
def parseRoot : List XmlEvent → Option XMLNode
  | [] => none
  | .comment _ :: rest => parseRoot rest
  | .procInst _ _ :: rest => parseRoot rest
  | .text s :: rest => if (trimL s.data).isEmpty then parseRoot rest else none
  | .start n a :: rest =>
    match parseNodes (rest.length + 1) rest with
    | some (kids, restAfter) =>
      match restAfter with
      | .endTag m :: rest2 =>
        if m = n ∧ allMisc rest2 then some (.element n a kids) else none
      | _ => none
    | none => none
  | .emptyTag n a :: rest =>
    if allMisc rest then some (.element n a []) else none
  | .endTag _ :: _ => none
  | .cdata _ :: _ => none

/-- Modelled from the spec: `xmltree::Element::parse` over a document's text:
the whole input must lex without error and form a well-formed document with
a single root element. -/
def parseDocument (s : String) : Option XMLNode :=
  let le := lexDocument s
  if le.snd then none else parseRoot le.fst

/-- Embeds `extract_root_attribute` (src/support/xmls.rs): parse the whole
document as a tree, then look the attribute up on the root element. -/
def xmls_extract_root_attribute (xml_content attr_name : String) : Option String :=
  (parseDocument xml_content).bind (fun root => getAttr attr_name (rootAttributes root))

/-- Embeds `extract_root_inner_nodes` (src/support/xmls.rs): parse the whole
document as a tree, then return the root element's children. -/
def extract_root_inner_nodes (xml_content : String) : Option (List XMLNode) :=
  (parseDocument xml_content).map rootChildren

/-- Embeds `extract_attribute_from_element` (src/support/xmls_stream.rs):
scan the element's attributes for the first one with the asked name. -/
def extract_attribute_from_element : List (String × String) → String → Option String
  | [], _ => none
  | (k, v) :: rest, attrName =>
    if k = attrName then some v else extract_attribute_from_element rest attrName

/-- The event scan of the streaming extractor: return at the first start or
self-closing tag; end of stream or a lexical error gives `none`. -/
def firstStartAttr : List XmlEvent → String → Option String
  | [], _ => none
  | .start _ attrs :: _, attrName => extract_attribute_from_element attrs attrName
  | .emptyTag _ attrs :: _, attrName => extract_attribute_from_element attrs attrName
  | _ :: rest, attrName => firstStartAttr rest attrName

/-- Embeds `extract_root_attribute` (src/support/xmls_stream.rs): read
events until the first `Start` or `Empty` element and extract the attribute
from it; `Eof` or a read error before that yields `none`. -/
def xmls_stream_extract_root_attribute (xml_content attr_name : String) : Option String :=
  firstStartAttr (lexDocument xml_content).fst attr_name

/-- Embeds `indent_content` (src/service/sketch/sketch_export.rs) on a
character list: find the minimum leading-whitespace byte length over the
non-blank lines, then rebuild each non-blank line as the base indent, the
line's indent relative to that minimum (in spaces), and the line's
`trim_start`; blank lines become empty. -/
def indentContentL (content : List Char) (baseSpaces : Nat) : List Char :=
  if content.isEmpty then []
  else
    let ls := linesOf content
    let minIndent := listMin ((ls.filter (fun line => !(trimL line).isEmpty)).map indentB)
    joinNL (ls.map (fun line =>
      if (trimL line).isEmpty then []
      else spacesL baseSpaces ++ spacesL (indentB line - minIndent) ++ trimStartL line))

/-- Embeds `indent_content` (src/service/sketch/sketch_export.rs). -/
def indent_content (content : String) (base_spaces : Nat) : String :=
  String.mk (indentContentL content.data base_spaces)

/-- Embeds `convert_svg_to_symbol` (src/service/sketch/sketch_export.rs):
extract the root `viewBox` verbatim and the root's children, fail on a
missing `viewBox`, a parse failure, an empty child list or empty rendered
content, and otherwise wrap the id-canonicalized, re-indented body in a
`<symbol>` element carrying the given id and the `viewBox`. -/
def convert_svg_to_symbol (svg_content symbol_id : String) : Option String :=
  match xmls_extract_root_attribute svg_content "viewBox" with
  | none => none
  | some viewbox =>
    match extract_root_inner_nodes svg_content with
    | none => none
    | some inner_nodes =>
      if inner_nodes.isEmpty then none
      else
        let transformed_nodes := transform_nodes_id_attributes inner_nodes canonicalize_name
        let inner_content := nodes_to_string transformed_nodes
        if strTrim inner_content = "" then none
        else
          let indented_content := indent_content inner_content 4
          if strTrim indented_content = "" then none
          else
            some ("  <symbol id=\"" ++ symbol_id ++ "\" viewBox=\"" ++ viewbox ++ "\">\n"
              ++ indented_content ++ "\n  </symbol>")

/-- The accumulation loop of `build_svg_symbols_file`: before every symbol
except the first, one extra newline (the separating blank line); after every
symbol, a newline. -/
def symbolsBody : List String → Bool → String
  | [], _ => ""
  | s :: rest, isFirst =>
    (if isFirst then "" else "\n") ++ s ++ "\n" ++ symbolsBody rest false

/-- Embeds `build_svg_symbols_file` (src/service/sketch/sketch_export.rs). -/
def build_svg_symbols_file (symbols : List String) : String :=
  "<svg width=\"0\" height=\"0\" style=\"position:absolute\">" ++ "\n"
    ++ symbolsBody symbols true ++ "</svg>\n"

/-- Joins strings with a separator without a trailing one, as `Vec::join`. -/
def joinSep (sep : String) : List String → String
  | [] => ""
  | [s] => s
  | s :: rest => s ++ sep ++ joinSep sep rest

/-- An artboard record, as `service::sketch::Artboard`: the tool-assigned
unique identifier and the hierarchical, `/`-delimited name. -/
structure Artboard where
  uid : String
  name : String

/-- A path as the export code observes it through `simple_fs::SPath`: the
path text, the result of `SPath::ext` (empty when the path has no
extension), and the parent path's text when the path has a parent. -/
structure SPathM where
  str : String
  ext : String
  parent : Option String

/-- One filesystem mutation or external-tool invocation performed by the
export code, in program order. -/
inductive FsEffect where
  | ensureDir (path : String)
  | runTool (format : String) (items : String) (outDir : String)
  | copyFile (src dst : String)
  | removeDirAll (path : String)
  | removeFile (path : String)
  | writeFile (path : String) (content : String)
deriving DecidableEq

/-- The error outcomes of the export functions, one constructor per
`return Err(...)` site of src/service/sketch/sketch_export.rs. -/
inductive ExportErr where
  | ambiguousArtboards (outPath : String) (n : Nat)
  | ambiguousFormats (outPath : String) (n : Nat)
  | ensureDirFailed (path : String)
  | toolFailed (format : String)
  | artifactNotFound (path : String)
  | readFailed (path : String)
  | emptySvg (name : String)
  | convertFailed (name : String)
  | noInnerContent (name : String)
  | cannotFindExported
  | copyFailed (dst : String)
  | writeFailed (path : String)
deriving DecidableEq

/-- The outcomes of the collaborators and of the filesystem, supplied to an
export run: whether directory creation succeeds, whether a sketchtool
invocation for a format succeeds, which files exist and what they hold,
what the recursive cache search finds, and whether copies and writes
succeed. -/
structure FsEnv where
  ensureDirOk : String → Bool
  toolOk : String → Bool
  fileExistsAt : String → Bool
  readFile : String → Option String
  findExported : String → String → Option String
  copyOk : String → String → Bool
  writeOk : String → Bool

/-- Embeds `is_single_file_output` (src/service/sketch/sketch_export.rs):
an empty extension is never a single-file target; otherwise the lowercased
extension must equal some lowercased requested format. -/
def is_single_file_output (ext : String) (formats : List String) : Bool :=
  if ext = "" then false
  else formats.any (fun f => strToLower f == strToLower ext)

/-- The per-format loop of `export_regular_formats`: invoke the tool, and in
single-file mode locate the produced file in the cache, ensure the target's
parent, copy the file to the target and remove the cache; in multi-file
mode record the per-artboard output paths. -/
def regularFormatsLoop (env : FsEnv) (itemsArg : String) (artboards : List Artboard)
    (output_path : SPathM) (outputDir : String) (cacheDir : Option String) :
    List String → List String → Except ExportErr (List String) × List FsEffect
  | [], acc => (.ok acc, [])
  | fmt :: rest, acc =>
    let tr1 := [FsEffect.runTool fmt itemsArg outputDir]
    if !(env.toolOk fmt) then (.error (.toolFailed fmt), tr1)
    else
      match cacheDir with
      | some cache =>
        match env.findExported cache fmt with
        | none => (.error .cannotFindExported, tr1)
        | some exportedPath =>
          let pe :=
            match output_path.parent with
            | some parent =>
              ([FsEffect.ensureDir parent],
                if env.ensureDirOk parent then none else some parent)
            | none => (([] : List FsEffect), (none : Option String))
          let tr2 := tr1 ++ pe.fst
          match pe.snd with
          | some parent => (.error (.ensureDirFailed parent), tr2)
          | none =>
            let tr3 := tr2 ++ [FsEffect.copyFile exportedPath output_path.str]
            if !(env.copyOk exportedPath output_path.str) then
              (.error (.copyFailed output_path.str), tr3)
            else
              let tr4 := tr3 ++ [FsEffect.removeDirAll cache]
              let step := regularFormatsLoop env itemsArg artboards output_path
                outputDir cacheDir rest (acc ++ [output_path.str])
              (step.fst, tr4 ++ step.snd)
      | none =>
        let step := regularFormatsLoop env itemsArg artboards output_path
          outputDir cacheDir rest
          (acc ++ artboards.map (fun ab => output_path.str ++ "/" ++ ab.name ++ "." ++ fmt))
        (step.fst, tr1 ++ step.snd)

/-- Embeds `export_regular_formats` (src/service/sketch/sketch_export.rs):
reject an ambiguous single-file target before any filesystem action, then
create the (real or cache) output directory and run the per-format loop. -/
def export_regular_formats (env : FsEnv) (artboards : List Artboard)
    (formats : List String) (output_path : SPathM) :
    Except ExportErr (List String) × List FsEffect :=
  let single_file_output := is_single_file_output output_path.ext formats
  if single_file_output ∧ artboards.length > 1 then
    (.error (.ambiguousArtboards output_path.str artboards.length), [])
  else if single_file_output ∧ formats.length > 1 then
    (.error (.ambiguousFormats output_path.str formats.length), [])
  else
    let parentStr := output_path.parent.getD "."
    let od :=
      if single_file_output then (parentStr ++ "/.cache", some (parentStr ++ "/.cache"))
      else (output_path.str, (none : Option String))
    let tr0 := [FsEffect.ensureDir od.fst]
    if !(env.ensureDirOk od.fst) then (.error (.ensureDirFailed od.fst), tr0)
    else
      let itemsArg := joinSep "," (artboards.map (fun ab => ab.uid))
      let step := regularFormatsLoop env itemsArg artboards output_path od.fst od.snd formats []
      (step.fst, tr0 ++ step.snd)

/-- The per-artboard loop of `export_svg_symbols`: locate the rendered SVG
at the exact expected path (no fuzzy fallback), read it, and convert it to
a symbol; the empty-content, conversion-failure and no-inner-content exits
remove the cache directory first, while the lookup and read failures
propagate without cleanup. -/
def symbolsLoop (env : FsEnv) (cacheDir : String) :
    List Artboard → Except ExportErr (List String) × List FsEffect
  | [] => (.ok [], [])
  | ab :: rest =>
    let symbol_id := canonicalize_name ab.name
    let expectedPath := cacheDir ++ "/" ++ ab.name ++ ".svg"
    if !(env.fileExistsAt expectedPath) then (.error (.artifactNotFound expectedPath), [])
    else
      match env.readFile expectedPath with
      | none => (.error (.readFailed expectedPath), [])
      | some svgContent =>
        if strTrim svgContent = "" then
          (.error (.emptySvg ab.name), [FsEffect.removeDirAll cacheDir])
        else
          match convert_svg_to_symbol svgContent symbol_id with
          | none => (.error (.convertFailed ab.name), [FsEffect.removeDirAll cacheDir])
          | some symbol =>
            if !(strContainsSub symbol "<") || countCharL '<' symbol.data ≤ 2 then
              (.error (.noInnerContent ab.name), [FsEffect.removeDirAll cacheDir])
            else
              let step := symbolsLoop env cacheDir rest
              match step.fst with
              | .ok syms => (.ok (symbol :: syms), step.snd)
              | .error e => (.error e, step.snd)

/-- The cache directory `export_svg_symbols` creates: `.cache-symbols` under
the target file's parent (the output path itself when the output path is a
directory), `.` when the target has no parent. -/
def cacheDirOfSymbols (output_path : SPathM) : String :=
  ((if output_path.ext ≠ "" then output_path.parent else some output_path.str).getD ".")
    ++ "/.cache-symbols"

/-- The body of `export_svg_symbols` once the target file and its parent
are resolved: create the `.cache-symbols` directory under the target's
parent, render all artboards to SVG into it, build each symbol, write the
assembled sprite to the target, and remove the cache on the success path;
the tool-failure exit removes the cache, while the parent-creation and
write failures do not. -/
def exportSymbolsResolved (env : FsEnv) (artboards : List Artboard)
    (targetStr : String) (targetParent : Option String) :
    Except ExportErr (List String) × List FsEffect :=
  let cacheDir := (targetParent.getD ".") ++ "/.cache-symbols"
  let tr0 := [FsEffect.ensureDir cacheDir]
  if !(env.ensureDirOk cacheDir) then (.error (.ensureDirFailed cacheDir), tr0)
  else
    let itemsArg := joinSep "," (artboards.map (fun ab => ab.uid))
    let tr1 := tr0 ++ [FsEffect.runTool "svg" itemsArg cacheDir]
    if !(env.toolOk "svg") then (.error (.toolFailed "svg"), tr1 ++ [FsEffect.removeDirAll cacheDir])
    else
      let step := symbolsLoop env cacheDir artboards
      match step.fst with
      | .error e => (.error e, tr1 ++ step.snd)
      | .ok symbols =>
        let symbols_content := build_svg_symbols_file symbols
        let pe :=
          match targetParent with
          | some parent =>
            ([FsEffect.ensureDir parent], if env.ensureDirOk parent then none else some parent)
          | none => (([] : List FsEffect), (none : Option String))
        let tr2 := tr1 ++ step.snd ++ pe.fst
        match pe.snd with
        | some parent => (.error (.ensureDirFailed parent), tr2)
        | none =>
          let tr3 := tr2 ++ [FsEffect.writeFile targetStr symbols_content]
          if !(env.writeOk targetStr) then (.error (.writeFailed targetStr), tr3)
          else (.ok [targetStr], tr3 ++ [FsEffect.removeDirAll cacheDir])

/-- Embeds `export_svg_symbols` (src/service/sketch/sketch_export.rs):
an output path that looks like a file (has an extension) is the target
itself, otherwise the target is `symbols.svg` inside the output directory;
the rest of the function is `exportSymbolsResolved`. -/
def export_svg_symbols (env : FsEnv) (artboards : List Artboard) (output_path : SPathM) :
    Except ExportErr (List String) × List FsEffect :=
  let looks_like_file := output_path.ext ≠ ""
  if looks_like_file then
    exportSymbolsResolved env artboards output_path.str output_path.parent
  else
    exportSymbolsResolved env artboards (output_path.str ++ "/symbols.svg")
      (some output_path.str)

/-- The directory-deletion allow-list (src/support/files.rs). -/
def DIR_DELETE_ALLOW_CONTAINS : List String := [".cache-symbols", ".cache"]

/-- The file-deletion allow-list (src/support/files.rs). -/
def FILE_DELETE_ALLOW_CONTAINS : List String := [".svg", ".png", ".jpeg"]

/-- Modelled from the spec: `simple_fs::safer_remove_dir` /
`safer_remove_file` (external library code configured by
src/support/files.rs): refuse without touching the filesystem unless the
resolved path is below the current working directory and the path text
contains one of the allowed marker substrings; report `Ok(false)` without
acting when the target is already absent; otherwise remove and report
`Ok(true)`.  Whether the resolved path is below the working directory is an
input, since path resolution queries the filesystem. -/
def safer_remove (mkEffect : String → FsEffect) (belowCwd : Bool) (pathStr : String)
    (mustContainAny : List String) (targetPresent : Bool) :
    Except String Bool × List FsEffect :=
  if !belowCwd then (.error "path is not below the current directory", [])
  else if !(mustContainAny.any (fun m => strContainsSub pathStr m)) then
    (.error "path does not contain an allowed marker", [])
  else if !targetPresent then (.ok false, [])
  else (.ok true, [mkEffect pathStr])

/-- Embeds `safer_delete_dir` (src/support/files.rs). -/
def safer_delete_dir (belowCwd : Bool) (pathStr : String) (targetPresent : Bool) :
    Except String Bool × List FsEffect :=
  safer_remove FsEffect.removeDirAll belowCwd pathStr DIR_DELETE_ALLOW_CONTAINS targetPresent

/-- Embeds `safer_delete_file` (src/support/files.rs). -/
def safer_delete_file (belowCwd : Bool) (pathStr : String) (targetPresent : Bool) :
    Except String Bool × List FsEffect :=
  safer_remove FsEffect.removeFile belowCwd pathStr FILE_DELETE_ALLOW_CONTAINS targetPresent

/-- The minimum leading-whitespace byte length over the non-blank lines,
as computed by `indent_content`. -/
def minNonBlankIndent (ls : List (List Char)) : Nat :=
  listMin ((ls.filter (fun line => !(trimL line).isEmpty)).map indentB)

/-- The per-line rebuild of `indent_content`: a blank line becomes empty, a
non-blank line becomes the base indent, the line's indent relative to the
minimum, and the line's `trim_start`. -/
def reindentLine (base m : Nat) (line : List Char) : List Char :=
  if (trimL line).isEmpty then []
  else spacesL base ++ spacesL (indentB line - m) ++ trimStartL line

/-- The error outcomes on which the symbol-export code does NOT remove its
cache directory before returning: directory-creation, artifact-lookup,
read and write failures. -/
def notCleanupErr : ExportErr → Prop
  | .toolFailed _ => False
  | .emptySvg _ => False
  | .convertFailed _ => False
  | .noInnerContent _ => False
  | _ => True

deriving instance DecidableEq for Except

theorem noAdj_tail (c : Char) (l : List Char) (h : noAdjacentDashes (c :: l) = true) :
    noAdjacentDashes l = true := by
  cases l with
  | nil => rfl
  | cons b r => simp [noAdjacentDashes] at h; exact h.2

theorem noAdj_cons (c : Char) (l : List Char) (h : noAdjacentDashes l = true)
    (hc : (c == '-') = false ∨ headNotDash l = true) : noAdjacentDashes (c :: l) = true := by
  cases l with
  | nil => rfl
  | cons b r =>
    simp only [noAdjacentDashes, Bool.and_eq_true, Bool.not_eq_true']
    refine ⟨?_, h⟩
    rcases hc with hc | hc
    · simp [hc]
    · simp only [headNotDash, Bool.not_eq_true'] at hc
      simp [hc]

theorem canonLoop_allCanon (l : List Char) : ∀ b, allCanonChars (canonLoop l b) = true := by
  induction l with
  | nil => intro b; rfl
  | cons c rest ih =>
    intro b
    by_cases hc : isAsciiAlphanumeric c = true
    · have h1 := ih false
      simp [canonLoop, hc, allCanonChars] at h1 ⊢
      exact h1
    · simp only [canonLoop, hc, if_false, Bool.false_eq_true]
      cases b with
      | true => simpa using ih true
      | false =>
        simp only [if_false, Bool.false_eq_true]
        have h1 := ih true
        simp [allCanonChars] at h1 ⊢
        exact h1

theorem canonLoop_headTrue (l : List Char) : headNotDash (canonLoop l true) = true := by
  induction l with
  | nil => rfl
  | cons c rest ih =>
    by_cases hc : isAsciiAlphanumeric c = true
    · simp only [canonLoop, hc, if_true]
      simp [headNotDash]
      intro h
      rw [h] at hc
      simp [isAsciiAlphanumeric] at hc
    · simpa [canonLoop, hc] using ih

theorem canonLoop_noAdj (l : List Char) : ∀ b, noAdjacentDashes (canonLoop l b) = true := by
  induction l with
  | nil => intro b; rfl
  | cons c rest ih =>
    intro b
    by_cases hc : isAsciiAlphanumeric c = true
    · simp only [canonLoop, hc, if_true]
      refine noAdj_cons c _ (ih false) (Or.inl ?_)
      simp only [beq_eq_false_iff_ne, ne_eq]
      intro h
      rw [h] at hc
      simp [isAsciiAlphanumeric] at hc
    · simp only [canonLoop, hc, if_false, Bool.false_eq_true]
      cases b with
      | true => simpa using ih true
      | false =>
        simp only [if_false, Bool.false_eq_true]
        exact noAdj_cons _ _ (ih true) (Or.inr (canonLoop_headTrue rest))

theorem headNotDash_dropWhileDash (l : List Char) :
    headNotDash (l.dropWhile (fun c => c == '-')) = true := by
  induction l with
  | nil => rfl
  | cons c rest ih =>
    by_cases hc : (c == '-') = true
    · simpa [List.dropWhile, hc] using ih
    · simp [List.dropWhile, hc, headNotDash]

theorem allCanon_dropWhile (l : List Char) (p : Char → Bool) (h : allCanonChars l = true) :
    allCanonChars (l.dropWhile p) = true := by
  induction l with
  | nil => rfl
  | cons c rest ih =>
    by_cases hc : p c = true
    · simp only [List.dropWhile, hc, if_true]
      refine ih ?_
      simp only [allCanonChars, List.all_cons, Bool.and_eq_true] at h
      exact h.2
    · simp only [List.dropWhile, hc, if_false, Bool.false_eq_true]
      exact h

theorem noAdj_dropWhile (l : List Char) (p : Char → Bool) (h : noAdjacentDashes l = true) :
    noAdjacentDashes (l.dropWhile p) = true := by
  induction l with
  | nil => rfl
  | cons c rest ih =>
    by_cases hc : p c = true
    · simp only [List.dropWhile, hc, if_true]
      exact ih (noAdj_tail c rest h)
    · simpa [List.dropWhile, hc] using h

theorem dropTrailing_is_front (p : Char → Bool) (l : List Char) :
    ∃ t, l = dropTrailing p l ++ t := by
  induction l with
  | nil => exact ⟨[], rfl⟩
  | cons c rest ih =>
    obtain ⟨t, ht⟩ := ih
    by_cases hr : (dropTrailing p rest).isEmpty = true
    · by_cases hc : p c = true
      · exact ⟨c :: rest, by simp [dropTrailing, hr, hc]⟩
      · refine ⟨rest, ?_⟩
        simp [dropTrailing, hr, hc]
    · refine ⟨t, ?_⟩
      simp only [dropTrailing, hr]
      simp only [Bool.false_eq_true, if_false]
      rw [List.cons_append]
      exact congrArg (c :: ·) ht

theorem noAdj_of_front (a b : List Char) (h : noAdjacentDashes (a ++ b) = true) :
    noAdjacentDashes a = true := by
  induction a with
  | nil => rfl
  | cons c rest ih =>
    cases rest with
    | nil => rfl
    | cons d r2 =>
      simp only [List.cons_append, noAdjacentDashes, Bool.and_eq_true] at h ⊢
      exact ⟨h.1, ih (by simpa using h.2)⟩

theorem allCanon_of_front (a b : List Char) (h : allCanonChars (a ++ b) = true) :
    allCanonChars a = true := by
  simp only [allCanonChars, List.all_append, Bool.and_eq_true] at h
  exact h.1

theorem headNotDash_of_front (a b : List Char) (h : headNotDash (a ++ b) = true) :
    headNotDash a = true := by
  cases a with
  | nil => rfl
  | cons c rest => simpa [headNotDash] using h

theorem lastNotDash_dropTrailingDash (l : List Char) :
    lastNotDash (dropTrailing (fun c => c == '-') l) = true := by
  induction l with
  | nil => rfl
  | cons c rest ih =>
    by_cases hr : (dropTrailing (fun c => c == '-') rest).isEmpty = true
    · by_cases hc : (c == '-') = true
      · simp [dropTrailing, hr, hc, lastNotDash]
      · simp [dropTrailing, hr, hc, lastNotDash]
    · simp only [dropTrailing, hr, Bool.false_eq_true, if_false]
      cases hd : dropTrailing (fun c => c == '-') rest with
      | nil => rw [hd] at hr; simp at hr
      | cons y r2 =>
        rw [hd] at ih
        simpa [lastNotDash] using ih

theorem trimDashes_allCanon (l : List Char) (h : allCanonChars l = true) :
    allCanonChars (trimDashes l) = true := by
  obtain ⟨t, ht⟩ := dropTrailing_is_front (fun c => c == '-') (l.dropWhile (fun c => c == '-'))
  unfold trimDashes
  refine allCanon_of_front _ t ?_
  rw [← ht]
  exact allCanon_dropWhile l _ h

theorem trimDashes_noAdj (l : List Char) (h : noAdjacentDashes l = true) :
    noAdjacentDashes (trimDashes l) = true := by
  obtain ⟨t, ht⟩ := dropTrailing_is_front (fun c => c == '-') (l.dropWhile (fun c => c == '-'))
  unfold trimDashes
  refine noAdj_of_front _ t ?_
  rw [← ht]
  exact noAdj_dropWhile l _ h

theorem trimDashes_headNotDash (l : List Char) : headNotDash (trimDashes l) = true := by
  obtain ⟨t, ht⟩ := dropTrailing_is_front (fun c => c == '-') (l.dropWhile (fun c => c == '-'))
  unfold trimDashes
  refine headNotDash_of_front _ t ?_
  rw [← ht]
  exact headNotDash_dropWhileDash l

theorem trimDashes_lastNotDash (l : List Char) : lastNotDash (trimDashes l) = true :=
  lastNotDash_dropTrailingDash _

theorem canonLoop_fixed (r : List Char) :
    (allCanonChars r = true → noAdjacentDashes r = true → canonLoop r false = r) ∧
    (allCanonChars r = true → noAdjacentDashes r = true → headNotDash r = true →
      canonLoop r true = r) := by
  induction r with
  | nil => exact ⟨fun _ _ => rfl, fun _ _ _ => rfl⟩
  | cons c rest ih =>
    have headFact : ∀ h1 : allCanonChars (c :: rest) = true,
        isAsciiAlphanumeric c = true ∨ (c == '-') = true := by
      intro h1
      simp only [allCanonChars, List.all_cons, Bool.and_eq_true, Bool.or_eq_true] at h1
      exact h1.1
    have tailAll : ∀ h1 : allCanonChars (c :: rest) = true, allCanonChars rest = true := by
      intro h1
      simp only [allCanonChars, List.all_cons, Bool.and_eq_true] at h1
      exact h1.2
    constructor
    · intro h1 h2
      by_cases hc : isAsciiAlphanumeric c = true
      · simp only [canonLoop, hc, if_true]
        rw [ih.1 (tailAll h1) (noAdj_tail _ _ h2)]
      · have hdash : (c == '-') = true := (headFact h1).resolve_left hc
        have hceq : c = '-' := by simpa using hdash
        subst hceq
        simp only [canonLoop, hc, if_false, Bool.false_eq_true]
        cases rest with
        | nil => rfl
        | cons d r2 =>
          have hd : (d == '-') = false := by
            simp only [noAdjacentDashes, Bool.and_eq_true, Bool.not_eq_true',
              Bool.and_eq_false_iff] at h2
            rcases h2.1 with h | h
            · simp at h
            · exact h
          have hhead : headNotDash (d :: r2) = true := by
            simp [headNotDash, hd]
          rw [ih.2 (tailAll h1) (noAdj_tail _ _ h2) hhead]
    · intro h1 h2 h3
      have hc : isAsciiAlphanumeric c = true := by
        rcases headFact h1 with h | h
        · exact h
        · simp only [headNotDash, Bool.not_eq_true'] at h3
          rw [h3] at h
          simp at h
      simp only [canonLoop, hc, if_true]
      rw [ih.1 (tailAll h1) (noAdj_tail _ _ h2)]

theorem dropWhileDash_of_headNotDash (r : List Char) (h : headNotDash r = true) :
    r.dropWhile (fun c => c == '-') = r := by
  cases r with
  | nil => rfl
  | cons c rest =>
    simp only [headNotDash, Bool.not_eq_true'] at h
    simp [List.dropWhile, h]

theorem dropTrailingDash_of_lastNotDash (r : List Char) (h : lastNotDash r = true) :
    dropTrailing (fun c => c == '-') r = r := by
  induction r with
  | nil => rfl
  | cons c rest ih =>
    cases rest with
    | nil =>
      simp only [lastNotDash, Bool.not_eq_true'] at h
      simp [dropTrailing, h]
    | cons y r2 =>
      have h2 : lastNotDash (y :: r2) = true := by simpa [lastNotDash] using h
      have ih2 := ih h2
      have hstep : dropTrailing (fun c => c == '-') (c :: y :: r2)
          = if (dropTrailing (fun c => c == '-') (y :: r2)).isEmpty
            then (if c == '-' then [] else [c])
            else c :: dropTrailing (fun c => c == '-') (y :: r2) := rfl
      rw [hstep, ih2]
      simp [List.isEmpty]

theorem trimDashes_of_canonical (r : List Char) (hh : headNotDash r = true)
    (hl : lastNotDash r = true) : trimDashes r = r := by
  unfold trimDashes
  rw [dropWhileDash_of_headNotDash r hh]
  exact dropTrailingDash_of_lastNotDash r hl

/-- C1: for every input string `s`, `canonicalize_name s` contains only
ASCII alphanumerics and dashes, never two adjacent dashes, and neither its
first nor its last character is a dash. -/
theorem canonicalize_name_slug_shape (s : String) :
    allCanonChars (canonicalize_name s).data = true ∧
    noAdjacentDashes (canonicalize_name s).data = true ∧
    headNotDash (canonicalize_name s).data = true ∧
    lastNotDash (canonicalize_name s).data = true := by
  refine ⟨?_, ?_, ?_, ?_⟩
  · exact trimDashes_allCanon _ (canonLoop_allCanon s.data false)
  · exact trimDashes_noAdj _ (canonLoop_noAdj s.data false)
  · exact trimDashes_headNotDash _
  · exact trimDashes_lastNotDash _

/-- C2: `canonicalize_name` is idempotent, and maps `"ico/user/fill"` to
`"ico-user-fill"`, `"ico//user--fill"` to `"ico-user-fill"`, `"/ico/user/"`
to `"ico-user"`, and `"my@icon#name!test"` to `"my-icon-name-test"`. -/
theorem canonicalize_name_idempotent_and_examples :
    (∀ s : String, canonicalize_name (canonicalize_name s) = canonicalize_name s) ∧
    canonicalize_name "ico/user/fill" = "ico-user-fill" ∧
    canonicalize_name "ico//user--fill" = "ico-user-fill" ∧
    canonicalize_name "/ico/user/" = "ico-user" ∧
    canonicalize_name "my@icon#name!test" = "my-icon-name-test" := by
  refine ⟨?_, by decide, by decide, by decide, by decide⟩
  intro s
  have hall : allCanonChars (canonicalize_name s).data = true :=
    trimDashes_allCanon _ (canonLoop_allCanon s.data false)
  have hadj : noAdjacentDashes (canonicalize_name s).data = true :=
    trimDashes_noAdj _ (canonLoop_noAdj s.data false)
  have hfix : canonLoop (canonicalize_name s).data false = (canonicalize_name s).data :=
    (canonLoop_fixed _).1 hall hadj
  have hh : headNotDash (canonicalize_name s).data = true :=
    trimDashes_headNotDash (canonLoop s.data false)
  have hl : lastNotDash (canonicalize_name s).data = true :=
    trimDashes_lastNotDash (canonLoop s.data false)
  show String.mk (trimDashes (canonLoop (canonicalize_name s).data false)) = canonicalize_name s
  rw [hfix, trimDashes_of_canonical ((canonicalize_name s).data) hh hl]

theorem strExt (a b : String) (h : a.data = b.data) : a = b := by
  cases a with
  | mk la =>
    cases b with
    | mk lb =>
      simp only [] at h
      exact congrArg String.mk h

theorem strNN (x : String) : ("\n" : String) ++ ("\n" ++ x) = "\n\n" ++ x := by
  rw [← String.append_assoc]
  have h : ("\n" : String) ++ "\n" = "\n\n" := by decide
  rw [h]

theorem symbolsBody_false_eq (symbols : List String) :
    symbolsBody symbols false
      = if symbols.isEmpty then "" else "\n" ++ joinSep "\n\n" symbols ++ "\n" := by
  induction symbols with
  | nil => rfl
  | cons s rest ih =>
    cases rest with
    | nil =>
      show "\n" ++ s ++ "\n" ++ "" = "\n" ++ s ++ "\n"
      rw [String.append_empty]
    | cons t r2 =>
      have hstep : symbolsBody (s :: t :: r2) false
          = "\n" ++ s ++ "\n" ++ symbolsBody (t :: r2) false := rfl
      have hjoin : joinSep "\n\n" (s :: t :: r2) = s ++ "\n\n" ++ joinSep "\n\n" (t :: r2) := rfl
      rw [hstep, ih]
      simp only [List.isEmpty, Bool.false_eq_true, if_false, hjoin]
      simp only [String.append_assoc]
      rw [strNN]

theorem symbolsBody_true_eq (symbols : List String) :
    symbolsBody symbols true
      = if symbols.isEmpty then "" else joinSep "\n\n" symbols ++ "\n" := by
  cases symbols with
  | nil => rfl
  | cons s rest =>
    have hstep : symbolsBody (s :: rest) true = "" ++ s ++ "\n" ++ symbolsBody rest false := rfl
    rw [hstep, symbolsBody_false_eq]
    cases rest with
    | nil =>
      show "" ++ s ++ "\n" ++ "" = joinSep "\n\n" [s] ++ "\n"
      rw [String.append_empty]
      show "" ++ s ++ "\n" = s ++ "\n"
      rw [String.empty_append]
    | cons t r2 =>
      simp only [List.isEmpty, Bool.false_eq_true, if_false]
      have hjoin : joinSep "\n\n" (s :: t :: r2) = s ++ "\n\n" ++ joinSep "\n\n" (t :: r2) := rfl
      rw [hjoin, String.empty_append]
      simp only [String.append_assoc]
      rw [strNN]

/-- C4: `build_svg_symbols_file` emits the fixed wrapper line, then the
symbols in order separated by exactly one blank line (one extra newline
between the newline-terminated symbols), none before the first, and closes
with the end tag plus a trailing newline; the empty sequence yields just
the two wrapper lines. -/
theorem build_svg_symbols_file_layout (symbols : List String) :
    build_svg_symbols_file symbols
      = "<svg width=\"0\" height=\"0\" style=\"position:absolute\">" ++ "\n"
        ++ (if symbols.isEmpty then "" else joinSep "\n\n" symbols ++ "\n")
        ++ "</svg>\n" := by
  unfold build_svg_symbols_file
  rw [symbolsBody_true_eq]

/-- C5: the destination counts as a single-file target exactly when it has a
(nonempty) extension that case-insensitively equals one of the requested
formats; and a single-file target with more than one matched artboard or
more than one requested format makes `export_regular_formats` fail with the
ambiguous-output error before it performs any filesystem action (the effect
trace is empty). -/
theorem single_file_classification_and_guard (env : FsEnv) (artboards : List Artboard)
    (formats : List String) (output_path : SPathM) :
    (is_single_file_output output_path.ext formats = true ↔
      output_path.ext ≠ "" ∧ ∃ f ∈ formats, strToLower f = strToLower output_path.ext) ∧
    (is_single_file_output output_path.ext formats = true →
      1 < artboards.length ∨ 1 < formats.length →
      (∃ e, (export_regular_formats env artboards formats output_path).fst = Except.error e ∧
        (e = ExportErr.ambiguousArtboards output_path.str artboards.length ∨
         e = ExportErr.ambiguousFormats output_path.str formats.length)) ∧
      (export_regular_formats env artboards formats output_path).snd = []) := by
  constructor
  · by_cases he : output_path.ext = ""
    · simp [is_single_file_output, he]
    · simp only [is_single_file_output, he, if_false, ne_eq, not_false_iff, true_and,
        List.any_eq_true, beq_iff_eq]
  · intro hs hc
    by_cases h1 : 1 < artboards.length
    · refine ⟨⟨ExportErr.ambiguousArtboards output_path.str artboards.length, ?_, Or.inl rfl⟩, ?_⟩
      · simp [export_regular_formats, hs, h1]
      · simp [export_regular_formats, hs, h1]
    · have h2 : 1 < formats.length := hc.resolve_left h1
      refine ⟨⟨ExportErr.ambiguousFormats output_path.str formats.length, ?_, Or.inr rfl⟩, ?_⟩
      · simp [export_regular_formats, hs, h1, h2]
      · simp [export_regular_formats, hs, h1, h2]

/-- A concrete instantiation of the single-file guard: two artboards, one
format, an output path with the matching `png` extension — the export fails
with the ambiguous-output error and performs no filesystem action. -/
theorem single_file_guard_witness :
    (∃ e, (export_regular_formats
        ⟨fun _ => true, fun _ => true, fun _ => true, fun _ => none,
          fun _ _ => none, fun _ _ => true, fun _ => true⟩
        [⟨"u1", "ico/a"⟩, ⟨"u2", "ico/b"⟩] ["png"] ⟨"out/a.png", "png", some "out"⟩).fst
          = Except.error e ∧
      (e = ExportErr.ambiguousArtboards "out/a.png" 2 ∨
       e = ExportErr.ambiguousFormats "out/a.png" 1)) ∧
    (export_regular_formats
        ⟨fun _ => true, fun _ => true, fun _ => true, fun _ => none,
          fun _ _ => none, fun _ _ => true, fun _ => true⟩
        [⟨"u1", "ico/a"⟩, ⟨"u2", "ico/b"⟩] ["png"] ⟨"out/a.png", "png", some "out"⟩).snd = [] :=
  (single_file_classification_and_guard
    ⟨fun _ => true, fun _ => true, fun _ => true, fun _ => none,
      fun _ _ => none, fun _ _ => true, fun _ => true⟩
    [⟨"u1", "ico/a"⟩, ⟨"u2", "ico/b"⟩] ["png"] ⟨"out/a.png", "png", some "out"⟩).2
    (by decide) (Or.inl (by decide))

/-- C7: both safe-removal operations refuse with an error and an empty
effect trace unless the resolved path is below the current working
directory and the path text contains an allow-listed marker; when both
checks pass but the target is absent they return `Ok(false)` with no
effect, rather than an error. -/
theorem safer_remove_refusal_and_absent (belowCwd : Bool) (pathStr : String) (present : Bool) :
    (¬ (belowCwd = true ∧
        DIR_DELETE_ALLOW_CONTAINS.any (fun m => strContainsSub pathStr m) = true) →
      (∃ msg, (safer_delete_dir belowCwd pathStr present).fst = Except.error msg) ∧
      (safer_delete_dir belowCwd pathStr present).snd = []) ∧
    (belowCwd = true →
      DIR_DELETE_ALLOW_CONTAINS.any (fun m => strContainsSub pathStr m) = true →
      present = false →
      safer_delete_dir belowCwd pathStr present = (Except.ok false, [])) ∧
    (¬ (belowCwd = true ∧
        FILE_DELETE_ALLOW_CONTAINS.any (fun m => strContainsSub pathStr m) = true) →
      (∃ msg, (safer_delete_file belowCwd pathStr present).fst = Except.error msg) ∧
      (safer_delete_file belowCwd pathStr present).snd = []) ∧
    (belowCwd = true →
      FILE_DELETE_ALLOW_CONTAINS.any (fun m => strContainsSub pathStr m) = true →
      present = false →
      safer_delete_file belowCwd pathStr present = (Except.ok false, [])) := by
  refine ⟨?_, ?_, ?_, ?_⟩
  · intro h
    by_cases hb : belowCwd = true
    · have hm : DIR_DELETE_ALLOW_CONTAINS.any (fun m => strContainsSub pathStr m) = false := by
        rcases Bool.eq_false_or_eq_true
          (DIR_DELETE_ALLOW_CONTAINS.any (fun m => strContainsSub pathStr m)) with ht | hf
        · exact absurd ⟨hb, ht⟩ h
        · exact hf
      exact ⟨⟨"path does not contain an allowed marker",
          by simp [safer_delete_dir, safer_remove, hb, hm]⟩,
        by simp [safer_delete_dir, safer_remove, hb, hm]⟩
    · have hb2 : belowCwd = false := by simpa using hb
      exact ⟨⟨"path is not below the current directory",
          by simp [safer_delete_dir, safer_remove, hb2]⟩,
        by simp [safer_delete_dir, safer_remove, hb2]⟩
  · intro hb hm hp
    simp [safer_delete_dir, safer_remove, hb, hm, hp]
  · intro h
    by_cases hb : belowCwd = true
    · have hm : FILE_DELETE_ALLOW_CONTAINS.any (fun m => strContainsSub pathStr m) = false := by
        rcases Bool.eq_false_or_eq_true
          (FILE_DELETE_ALLOW_CONTAINS.any (fun m => strContainsSub pathStr m)) with ht | hf
        · exact absurd ⟨hb, ht⟩ h
        · exact hf
      exact ⟨⟨"path does not contain an allowed marker",
          by simp [safer_delete_file, safer_remove, hb, hm]⟩,
        by simp [safer_delete_file, safer_remove, hb, hm]⟩
    · have hb2 : belowCwd = false := by simpa using hb
      exact ⟨⟨"path is not below the current directory",
          by simp [safer_delete_file, safer_remove, hb2]⟩,
        by simp [safer_delete_file, safer_remove, hb2]⟩
  · intro hb hm hp
    simp [safer_delete_file, safer_remove, hb, hm, hp]

/-- A concrete instantiation of the deletion-guard contract: a path outside
the working directory is refused with no effect, and an absent `.cache`
path below the working directory yields `Ok(false)` with no effect. -/
theorem safer_remove_guard_witness :
    ((∃ msg, (safer_delete_dir false "out/.cache" true).fst = Except.error msg) ∧
      (safer_delete_dir false "out/.cache" true).snd = []) ∧
    safer_delete_dir true "out/.cache" false = (Except.ok false, []) :=
  ⟨(safer_remove_refusal_and_absent false "out/.cache" true).1 (by simp),
   (safer_remove_refusal_and_absent true "out/.cache" false).2.1 rfl (by decide) rfl⟩

theorem attrs_map_id_of_none (f : String → String) (attrs : List (String × String))
    (h : ∀ p ∈ attrs, ¬ p.1 = "id") :
    attrs.map (fun p => if p.1 = "id" then (p.1, f p.2) else p) = attrs := by
  induction attrs with
  | nil => rfl
  | cons a rest ih =>
    have ha : ¬ a.1 = "id" := h a (List.mem_cons_self a rest)
    simp only [List.map_cons, ha, if_false]
    rw [ih (fun p hp => h p (List.mem_cons_of_mem a hp))]

theorem getAttr_none_no_key (attrs : List (String × String)) (k : String)
    (h : getAttr k attrs = none) : ∀ p ∈ attrs, ¬ p.1 = k := by
  induction attrs with
  | nil => intro p hp; cases hp
  | cons a rest ih =>
    intro p hp
    by_cases ha : a.1 = k
    · exfalso
      cases a with
      | mk k0 v0 =>
        simp only [getAttr, ha] at h
        simp only at ha
        rw [if_pos ha] at h
        cases h
    · cases hp with
      | head => exact ha
      | tail _ hm =>
        refine ih ?_ p hm
        cases a with
        | mk k0 v0 =>
          simp only at ha
          simpa [getAttr, ha] using h

theorem nodupKeys_no_key_of_head (k0 : String) (v0 : String) (rest : List (String × String))
    (h : nodupKeys ((k0, v0) :: rest) = true) : ∀ p ∈ rest, ¬ p.1 = k0 := by
  intro p hp hk
  simp only [nodupKeys, Bool.and_eq_true, Bool.not_eq_true', List.any_eq_false] at h
  have := h.1 p hp
  simp [hk] at this

theorem nodupKeys_tail (a : String × String) (rest : List (String × String))
    (h : nodupKeys (a :: rest) = true) : nodupKeys rest = true := by
  cases a with
  | mk k0 v0 =>
    simp only [nodupKeys, Bool.and_eq_true] at h
    exact h.2

theorem insertAttr_eq_map (f : String → String) (attrs : List (String × String)) (v : String)
    (hnd : nodupKeys attrs = true) (h : getAttr "id" attrs = some v) :
    insertAttr "id" (f v) attrs
      = attrs.map (fun p => if p.1 = "id" then (p.1, f p.2) else p) := by
  induction attrs with
  | nil => cases h
  | cons a rest ih =>
    cases a with
    | mk k0 v0 =>
      by_cases hk : k0 = "id"
      · subst hk
        have hv : v0 = v := by simpa [getAttr] using h
        subst hv
        have hL : insertAttr "id" (f v0) (("id", v0) :: rest) = ("id", f v0) :: rest := by
          simp [insertAttr]
        have hR : (("id", v0) :: rest).map (fun p => if p.1 = "id" then (p.1, f p.2) else p)
            = ("id", f v0) :: rest.map (fun p => if p.1 = "id" then (p.1, f p.2) else p) := by
          simp
        rw [hL, hR, attrs_map_id_of_none f rest (nodupKeys_no_key_of_head "id" v0 rest hnd)]
      · simp only [getAttr, if_neg hk] at h
        simp only [insertAttr, if_neg hk, List.map_cons]
        rw [ih (nodupKeys_tail _ _ hnd) h]

mutual

theorem transformNode_eq_idSpec (f : String → String) (n : XMLNode)
    (h : nodupNode n = true) : transformNode f n = idSpecNode f n := by
  cases n with
  | element name attrs children =>
    have hk : nodupKeys attrs = true := by
      simp only [nodupNode, Bool.and_eq_true] at h
      exact h.1
    have hc : nodupNodeList children = true := by
      simp only [nodupNode, Bool.and_eq_true] at h
      exact h.2
    simp only [transformNode, idSpecNode]
    congr 1
    · cases hg : getAttr "id" attrs with
      | none =>
        exact (attrs_map_id_of_none f attrs (getAttr_none_no_key attrs "id" hg)).symm
      | some v => exact insertAttr_eq_map f attrs v hk hg
    · exact transformNodeList_eq_idSpec f children hc
  | text s => rfl
  | cdata s => rfl
  | comment s => rfl
  | procInst t d => rfl

theorem transformNodeList_eq_idSpec (f : String → String) (l : List XMLNode)
    (h : nodupNodeList l = true) : transformNodeList f l = idSpecNodeList f l := by
  cases l with
  | nil => rfl
  | cons n rest =>
    have h1 : nodupNode n = true := by
      simp only [nodupNodeList, Bool.and_eq_true] at h
      exact h.1
    have h2 : nodupNodeList rest = true := by
      simp only [nodupNodeList, Bool.and_eq_true] at h
      exact h.2
    simp only [transformNodeList, idSpecNodeList]
    rw [transformNode_eq_idSpec f n h1, transformNodeList_eq_idSpec f rest h2]

end

/-- C8: on trees whose elements never bind one attribute name twice (the
shape every parsed document has), `transform_nodes_id_attributes` rewrites
exactly the value of every `id` attribute of every element at every depth
with the transform applied to the old value, and leaves every other
attribute and every text, CDATA, comment and processing-instruction node
unchanged, preserving element and attribute order — it equals the pointwise
specification `idSpecNodeList`. -/
theorem transform_nodes_id_attributes_spec (nodes : List XMLNode) (f : String → String)
    (h : nodupNodeList nodes = true) :
    transform_nodes_id_attributes nodes f = idSpecNodeList f nodes :=
  transformNodeList_eq_idSpec f nodes h

/-- A concrete instantiation of the id rewrite: a mixed tree with a nested
element, rewritten with the name canonicalizer. -/
theorem transform_nodes_id_attributes_spec_witness :
    transform_nodes_id_attributes
      [XMLNode.text "t",
       XMLNode.element "g" [("id", "ico/a"), ("x", "1")]
         [XMLNode.element "p" [("id", "b/c")] [], XMLNode.comment "k"]]
      canonicalize_name
    = idSpecNodeList canonicalize_name
      [XMLNode.text "t",
       XMLNode.element "g" [("id", "ico/a"), ("x", "1")]
         [XMLNode.element "p" [("id", "b/c")] [], XMLNode.comment "k"]] :=
  transform_nodes_id_attributes_spec
    [XMLNode.text "t",
     XMLNode.element "g" [("id", "ico/a"), ("x", "1")]
       [XMLNode.element "p" [("id", "b/c")] [], XMLNode.comment "k"]]
    canonicalize_name (by decide)

theorem strLenB_append (a b : List Char) : strLenB (a ++ b) = strLenB a + strLenB b := by
  induction a with
  | nil => simp [strLenB]
  | cons c rest ih => simp [strLenB, ih]; omega

theorem strLenB_spaces (n : Nat) : strLenB (spacesL n) = n := by
  induction n with
  | zero => rfl
  | succ k ih =>
    simp only [spacesL, List.replicate_succ, strLenB]
    rw [show spacesL k = List.replicate k ' ' from rfl] at ih
    rw [ih]
    have hsz : (' ').utf8Size = 1 := by decide
    omega

theorem trimStartL_spaces_append (n : Nat) (l : List Char) :
    trimStartL (spacesL n ++ l) = trimStartL l := by
  induction n with
  | zero => rfl
  | succ k ih =>
    simp only [spacesL, List.replicate_succ, List.cons_append]
    rw [show trimStartL (' ' :: (List.replicate k ' ' ++ l))
        = trimStartL (List.replicate k ' ' ++ l) from by simp [trimStartL, List.dropWhile, wsChar]]
    exact ih

theorem trimStartL_idem (l : List Char) : trimStartL (trimStartL l) = trimStartL l := by
  induction l with
  | nil => rfl
  | cons c rest ih =>
    by_cases hc : wsChar c = true
    · simpa [trimStartL, List.dropWhile, hc] using ih
    · simp [trimStartL, List.dropWhile, hc]

theorem strLenB_dropWhile_le (p : Char → Bool) (l : List Char) :
    strLenB (l.dropWhile p) ≤ strLenB l := by
  induction l with
  | nil => exact Nat.le_refl _
  | cons c rest ih =>
    by_cases hc : p c = true
    · simp only [List.dropWhile, hc, if_true]
      refine Nat.le_trans ih ?_
      simp only [strLenB]
      omega
    · simp [List.dropWhile, hc]

theorem indentB_trimStart (l : List Char) : indentB (trimStartL l) = 0 := by
  unfold indentB
  rw [trimStartL_idem]
  omega

theorem indentB_spaces_append (n : Nat) (l : List Char) :
    indentB (spacesL n ++ l) = n + indentB l := by
  unfold indentB
  rw [trimStartL_spaces_append, strLenB_append, strLenB_spaces]
  have := strLenB_dropWhile_le wsChar l
  unfold trimStartL
  omega

theorem listMin_le (xs : List Nat) (x : Nat) (hx : x ∈ xs) : listMin xs ≤ x := by
  induction xs with
  | nil => cases hx
  | cons y rest ih =>
    cases rest with
    | nil =>
      cases hx with
      | head => exact Nat.le_refl _
      | tail _ hm => cases hm
    | cons z r2 =>
      have hstep : listMin (y :: z :: r2) = min y (listMin (z :: r2)) := rfl
      rw [hstep]
      cases hx with
      | head => exact Nat.min_le_left _ _
      | tail _ hm => exact Nat.le_trans (Nat.min_le_right _ _) (ih hm)

theorem reindentLine_indent (m : Nat) (line : List Char)
    (hnb : (trimL line).isEmpty = false) :
    indentB (reindentLine 4 m line) = 4 + (indentB line - m) := by
  unfold reindentLine
  rw [if_neg (by simp [hnb])]
  rw [List.append_assoc, indentB_spaces_append, indentB_spaces_append, indentB_trimStart]
  omega

theorem reindentLine_content (m : Nat) (line : List Char)
    (hnb : (trimL line).isEmpty = false) :
    trimStartL (reindentLine 4 m line) = trimStartL line := by
  unfold reindentLine
  rw [if_neg (by simp [hnb])]
  rw [List.append_assoc, trimStartL_spaces_append, trimStartL_spaces_append, trimStartL_idem]

/-- C9: `indent_content` with base 4 rebuilds the fragment line by line:
the minimum leading-whitespace length across the non-blank lines is
stripped and every non-blank line is prefixed by exactly 4 spaces plus its
indentation relative to that minimum, so every non-blank output line's
indent is `4 + (own indent - minimum)`, line contents after the indent are
unchanged, and the indent difference between any two non-blank lines is
exactly preserved. -/
theorem indent_content_reindents (content : String) :
    ((indent_content content 4).data
      = joinNL ((linesOf content.data).map
          (reindentLine 4 (minNonBlankIndent (linesOf content.data))))) ∧
    (∀ line ∈ linesOf content.data, (trimL line).isEmpty = false →
      indentB (reindentLine 4 (minNonBlankIndent (linesOf content.data)) line)
          = 4 + (indentB line - minNonBlankIndent (linesOf content.data)) ∧
        trimStartL (reindentLine 4 (minNonBlankIndent (linesOf content.data)) line)
          = trimStartL line) ∧
    (∀ l1 ∈ linesOf content.data, ∀ l2 ∈ linesOf content.data,
      (trimL l1).isEmpty = false → (trimL l2).isEmpty = false →
      (indentB (reindentLine 4 (minNonBlankIndent (linesOf content.data)) l1) : Int)
          - indentB (reindentLine 4 (minNonBlankIndent (linesOf content.data)) l2)
        = (indentB l1 : Int) - indentB l2) := by
  refine ⟨?_, ?_, ?_⟩
  · by_cases hc : content.data.isEmpty = true
    · have hnil : content.data = [] := by simpa using hc
      show indentContentL content.data 4 = _
      rw [hnil]
      rfl
    · show indentContentL content.data 4 = _
      unfold indentContentL
      rw [if_neg (by simp [hc])]
      rfl
  · intro line _ hnb
    exact ⟨reindentLine_indent _ line hnb, reindentLine_content _ line hnb⟩
  · intro l1 h1 l2 h2 hnb1 hnb2
    have hm1 : minNonBlankIndent (linesOf content.data) ≤ indentB l1 := by
      refine listMin_le _ _ ?_
      refine List.mem_map_of_mem indentB ?_
      rw [List.mem_filter]
      exact ⟨h1, by simp [hnb1]⟩
    have hm2 : minNonBlankIndent (linesOf content.data) ≤ indentB l2 := by
      refine listMin_le _ _ ?_
      refine List.mem_map_of_mem indentB ?_
      rw [List.mem_filter]
      exact ⟨h2, by simp [hnb2]⟩
    rw [reindentLine_indent _ l1 hnb1, reindentLine_indent _ l2 hnb2]
    omega

theorem symbolsLoop_error_shape (env : FsEnv) (cacheDir : String) (abs : List Artboard) :
    ∀ e, (symbolsLoop env cacheDir abs).fst = Except.error e →
    FsEffect.removeDirAll cacheDir ∈ (symbolsLoop env cacheDir abs).snd ∨
    (∃ p, e = ExportErr.artifactNotFound p) ∨ (∃ p, e = ExportErr.readFailed p) := by
  induction abs with
  | nil =>
    intro e he
    simp [symbolsLoop] at he
  | cons ab rest ih =>
    intro e he
    by_cases hex : env.fileExistsAt (cacheDir ++ "/" ++ ab.name ++ ".svg") = true
    · cases hread : env.readFile (cacheDir ++ "/" ++ ab.name ++ ".svg") with
      | none =>
        rw [show (symbolsLoop env cacheDir (ab :: rest))
            = (Except.error (ExportErr.readFailed (cacheDir ++ "/" ++ ab.name ++ ".svg")), [])
          from by simp [symbolsLoop, hex, hread]] at he
        simp only [] at he
        cases he
        exact Or.inr (Or.inr ⟨_, rfl⟩)
      | some svgContent =>
        by_cases htrim : strTrim svgContent = ""
        · rw [show (symbolsLoop env cacheDir (ab :: rest))
              = (Except.error (ExportErr.emptySvg ab.name), [FsEffect.removeDirAll cacheDir])
            from by simp [symbolsLoop, hex, hread, htrim]]
          exact Or.inl (by simp)
        · cases hconv : convert_svg_to_symbol svgContent (canonicalize_name ab.name) with
          | none =>
            rw [show (symbolsLoop env cacheDir (ab :: rest))
                = (Except.error (ExportErr.convertFailed ab.name),
                   [FsEffect.removeDirAll cacheDir])
              from by simp [symbolsLoop, hex, hread, htrim, hconv]]
            exact Or.inl (by simp)
          | some symbol =>
            by_cases hin : (!(strContainsSub symbol "<") ||
                decide (countCharL '<' symbol.data ≤ 2)) = true
            · rw [show (symbolsLoop env cacheDir (ab :: rest))
                  = (Except.error (ExportErr.noInnerContent ab.name),
                     [FsEffect.removeDirAll cacheDir])
                from by simp [symbolsLoop, hex, hread, htrim, hconv, hin]]
              exact Or.inl (by simp)
            · have hstep : symbolsLoop env cacheDir (ab :: rest)
                  = (match (symbolsLoop env cacheDir rest).fst with
                     | Except.ok syms => (Except.ok (symbol :: syms),
                        (symbolsLoop env cacheDir rest).snd)
                     | Except.error e2 => (Except.error e2,
                        (symbolsLoop env cacheDir rest).snd)) := by
                simp [symbolsLoop, hex, hread, htrim, hconv, hin]
              rw [hstep] at he ⊢
              cases hrest : (symbolsLoop env cacheDir rest).fst with
              | ok syms =>
                rw [hrest] at he
                simp at he
              | error e2 =>
                rw [hrest] at he
                simp only [hrest]
                simp only [] at he ⊢
                cases he
                exact ih _ hrest
    · rw [show (symbolsLoop env cacheDir (ab :: rest))
          = (Except.error (ExportErr.artifactNotFound (cacheDir ++ "/" ++ ab.name ++ ".svg")), [])
        from by simp [symbolsLoop, hex]] at he
      simp only [] at he
      cases he
      exact Or.inr (Or.inl ⟨_, rfl⟩)

theorem regularFormatsLoop_removes (env : FsEnv) (itemsArg : String)
    (artboards : List Artboard) (output_path : SPathM) (outputDir cache : String)
    (fmt : String) (rest : List String) (acc : List String) (v : List String)
    (hok : (regularFormatsLoop env itemsArg artboards output_path outputDir (some cache)
        (fmt :: rest) acc).fst = Except.ok v) :
    FsEffect.removeDirAll cache
      ∈ (regularFormatsLoop env itemsArg artboards output_path outputDir (some cache)
          (fmt :: rest) acc).snd := by
  by_cases hT : env.toolOk fmt = true
  · cases hF : env.findExported cache fmt with
    | none =>
      rw [show regularFormatsLoop env itemsArg artboards output_path outputDir (some cache)
            (fmt :: rest) acc
          = (Except.error ExportErr.cannotFindExported,
             [FsEffect.runTool fmt itemsArg outputDir])
        from by simp [regularFormatsLoop, hT, hF]] at hok
      simp at hok
    | some exportedPath =>
      cases hP : output_path.parent with
      | some parent =>
        by_cases hE : env.ensureDirOk parent = true
        · by_cases hC : env.copyOk exportedPath output_path.str = true
          · rw [show regularFormatsLoop env itemsArg artboards output_path outputDir
                  (some cache) (fmt :: rest) acc
                = ((regularFormatsLoop env itemsArg artboards output_path outputDir
                    (some cache) rest (acc ++ [output_path.str])).fst,
                   ([FsEffect.runTool fmt itemsArg outputDir] ++ [FsEffect.ensureDir parent]
                    ++ [FsEffect.copyFile exportedPath output_path.str]
                    ++ [FsEffect.removeDirAll cache])
                   ++ (regularFormatsLoop env itemsArg artboards output_path outputDir
                    (some cache) rest (acc ++ [output_path.str])).snd)
              from by simp [regularFormatsLoop, hT, hF, hP, hE, hC]]
            simp
          · rw [show regularFormatsLoop env itemsArg artboards output_path outputDir
                  (some cache) (fmt :: rest) acc
                = (Except.error (ExportErr.copyFailed output_path.str),
                   [FsEffect.runTool fmt itemsArg outputDir] ++ [FsEffect.ensureDir parent]
                    ++ [FsEffect.copyFile exportedPath output_path.str])
              from by simp [regularFormatsLoop, hT, hF, hP, hE, hC]] at hok
            simp at hok
        · rw [show regularFormatsLoop env itemsArg artboards output_path outputDir
                (some cache) (fmt :: rest) acc
              = (Except.error (ExportErr.ensureDirFailed parent),
                 [FsEffect.runTool fmt itemsArg outputDir] ++ [FsEffect.ensureDir parent])
            from by simp [regularFormatsLoop, hT, hF, hP, hE]] at hok
          simp at hok
      | none =>
        by_cases hC : env.copyOk exportedPath output_path.str = true
        · rw [show regularFormatsLoop env itemsArg artboards output_path outputDir
                (some cache) (fmt :: rest) acc
              = ((regularFormatsLoop env itemsArg artboards output_path outputDir
                  (some cache) rest (acc ++ [output_path.str])).fst,
                 ([FsEffect.runTool fmt itemsArg outputDir]
                  ++ [FsEffect.copyFile exportedPath output_path.str]
                  ++ [FsEffect.removeDirAll cache])
                 ++ (regularFormatsLoop env itemsArg artboards output_path outputDir
                  (some cache) rest (acc ++ [output_path.str])).snd)
            from by simp [regularFormatsLoop, hT, hF, hP, hC]]
          simp
        · rw [show regularFormatsLoop env itemsArg artboards output_path outputDir
                (some cache) (fmt :: rest) acc
              = (Except.error (ExportErr.copyFailed output_path.str),
                 [FsEffect.runTool fmt itemsArg outputDir]
                  ++ [FsEffect.copyFile exportedPath output_path.str])
            from by simp [regularFormatsLoop, hT, hF, hP, hC]] at hok
          simp at hok
  · rw [show regularFormatsLoop env itemsArg artboards output_path outputDir (some cache)
          (fmt :: rest) acc
        = (Except.error (ExportErr.toolFailed fmt), [FsEffect.runTool fmt itemsArg outputDir])
      from by simp [regularFormatsLoop, hT]] at hok
    simp at hok

theorem cleanupSet_error_absurd (res : Except ExportErr (List String)) (e : ExportErr)
    (hres : res = Except.error e)
    (h : (∃ v, res = Except.ok v) ∨
         (∃ f, res = Except.error (ExportErr.toolFailed f)) ∨
         (∃ n, res = Except.error (ExportErr.emptySvg n)) ∨
         (∃ n, res = Except.error (ExportErr.convertFailed n)) ∨
         (∃ n, res = Except.error (ExportErr.noInnerContent n)))
    (hnot : notCleanupErr e) : False := by
  rcases h with ⟨v, hv⟩ | ⟨f, hv⟩ | ⟨n, hv⟩ | ⟨n, hv⟩ | ⟨n, hv⟩ <;> rw [hres] at hv
  · exact Except.noConfusion hv
  · have he : e = ExportErr.toolFailed f := by simpa using hv
    rw [he] at hnot
    simp only [notCleanupErr] at hnot
  · have he : e = ExportErr.emptySvg n := by simpa using hv
    rw [he] at hnot
    simp only [notCleanupErr] at hnot
  · have he : e = ExportErr.convertFailed n := by simpa using hv
    rw [he] at hnot
    simp only [notCleanupErr] at hnot
  · have he : e = ExportErr.noInnerContent n := by simpa using hv
    rw [he] at hnot
    simp only [notCleanupErr] at hnot

theorem exportSymbolsResolved_cleanup (env : FsEnv) (abs : List Artboard)
    (targetStr : String) (targetParent : Option String)
    (h : (∃ v, (exportSymbolsResolved env abs targetStr targetParent).fst = Except.ok v) ∨
         (∃ f, (exportSymbolsResolved env abs targetStr targetParent).fst
            = Except.error (ExportErr.toolFailed f)) ∨
         (∃ n, (exportSymbolsResolved env abs targetStr targetParent).fst
            = Except.error (ExportErr.emptySvg n)) ∨
         (∃ n, (exportSymbolsResolved env abs targetStr targetParent).fst
            = Except.error (ExportErr.convertFailed n)) ∨
         (∃ n, (exportSymbolsResolved env abs targetStr targetParent).fst
            = Except.error (ExportErr.noInnerContent n))) :
    FsEffect.removeDirAll ((targetParent.getD ".") ++ "/.cache-symbols")
      ∈ (exportSymbolsResolved env abs targetStr targetParent).snd := by
  by_cases h1 : env.ensureDirOk ((targetParent.getD ".") ++ "/.cache-symbols") = true
  · by_cases h2 : env.toolOk "svg" = true
    · cases hloop : (symbolsLoop env ((targetParent.getD ".") ++ "/.cache-symbols") abs).fst with
      | error e =>
        have hfst : (exportSymbolsResolved env abs targetStr targetParent).fst
            = Except.error e := by
          simp [exportSymbolsResolved, h1, h2, hloop]
        rcases symbolsLoop_error_shape env _ abs e hloop with hmem | ⟨p, hp⟩ | ⟨p, hp⟩
        · simp [exportSymbolsResolved, h1, h2, hloop, hmem]
        · exact ((cleanupSet_error_absurd _ e hfst h
            (by rw [hp]; simp [notCleanupErr])) : False).elim
        · exact ((cleanupSet_error_absurd _ e hfst h
            (by rw [hp]; simp [notCleanupErr])) : False).elim
      | ok syms =>
        cases targetParent with
        | some parent =>
          simp only [Option.getD_some] at h1 hloop
          by_cases h3 : env.ensureDirOk parent = true
          · by_cases h4 : env.writeOk targetStr = true
            · simp [exportSymbolsResolved, h1, h2, hloop, h3, h4]
            · have h4f : env.writeOk targetStr = false := by simpa using h4
              have hfst : (exportSymbolsResolved env abs targetStr (some parent)).fst
                  = Except.error (ExportErr.writeFailed targetStr) := by
                simp [exportSymbolsResolved, h1, h2, hloop, h3, h4f]
              exact ((cleanupSet_error_absurd _ _ hfst h
                (by simp [notCleanupErr])) : False).elim
          · have h3f : env.ensureDirOk parent = false := by simpa using h3
            have hfst : (exportSymbolsResolved env abs targetStr (some parent)).fst
                = Except.error (ExportErr.ensureDirFailed parent) := by
              simp [exportSymbolsResolved, h1, h2, hloop, h3f]
            exact ((cleanupSet_error_absurd _ _ hfst h
              (by simp [notCleanupErr])) : False).elim
        | none =>
          simp only [Option.getD_none] at h1 hloop
          have hdot : ("." : String) ++ "/.cache-symbols" = "./.cache-symbols" := by decide
          rw [hdot] at h1 hloop
          by_cases h4 : env.writeOk targetStr = true
          · simp [exportSymbolsResolved, h1, h2, hloop, h4]
          · have h4f : env.writeOk targetStr = false := by simpa using h4
            have hfst : (exportSymbolsResolved env abs targetStr none).fst
                = Except.error (ExportErr.writeFailed targetStr) := by
              simp [exportSymbolsResolved, h1, h2, hloop, h4f]
            exact ((cleanupSet_error_absurd _ _ hfst h
              (by simp [notCleanupErr])) : False).elim
    · have h2f : env.toolOk "svg" = false := by simpa using h2
      simp [exportSymbolsResolved, h1, h2f]
  · have h1f : env.ensureDirOk ((targetParent.getD ".") ++ "/.cache-symbols") = false := by
      simpa using h1
    have hfst : (exportSymbolsResolved env abs targetStr targetParent).fst
        = Except.error (ExportErr.ensureDirFailed
            ((targetParent.getD ".") ++ "/.cache-symbols")) := by
      simp [exportSymbolsResolved, h1f]
    exact ((cleanupSet_error_absurd _ _ hfst h
      (by simp [notCleanupErr])) : False).elim

/-- C6 (amended): the symbol-assembly cache directory is removed (by direct
recursive deletion, not through the deletion guard) before the call returns
on the success outcome and on the tool-failure, empty-content,
conversion-failure and missing-inner-content failure outcomes, but not on
the artifact-lookup, read, parent-creation or write failures; the
single-file `.cache` directory of the regular-format path is removed
whenever that export succeeds. -/
theorem export_cache_cleanup_amended :
    (∀ (env : FsEnv) (artboards : List Artboard) (output_path : SPathM),
      ((∃ v, (export_svg_symbols env artboards output_path).fst = Except.ok v) ∨
       (∃ f, (export_svg_symbols env artboards output_path).fst
          = Except.error (ExportErr.toolFailed f)) ∨
       (∃ n, (export_svg_symbols env artboards output_path).fst
          = Except.error (ExportErr.emptySvg n)) ∨
       (∃ n, (export_svg_symbols env artboards output_path).fst
          = Except.error (ExportErr.convertFailed n)) ∨
       (∃ n, (export_svg_symbols env artboards output_path).fst
          = Except.error (ExportErr.noInnerContent n))) →
      FsEffect.removeDirAll (cacheDirOfSymbols output_path)
        ∈ (export_svg_symbols env artboards output_path).snd) ∧
    (∀ (env : FsEnv) (artboards : List Artboard) (formats : List String)
        (output_path : SPathM) (v : List String),
      is_single_file_output output_path.ext formats = true →
      formats ≠ [] →
      (export_regular_formats env artboards formats output_path).fst = Except.ok v →
      FsEffect.removeDirAll (output_path.parent.getD "." ++ "/.cache")
        ∈ (export_regular_formats env artboards formats output_path).snd) := by
  constructor
  · intro env abs path h
    by_cases hfile : path.ext = ""
    · have hexp : export_svg_symbols env abs path
          = exportSymbolsResolved env abs (path.str ++ "/symbols.svg") (some path.str) := by
        simp [export_svg_symbols, hfile]
      rw [hexp] at h ⊢
      have hcd : cacheDirOfSymbols path = (some path.str).getD "." ++ "/.cache-symbols" := by
        simp [cacheDirOfSymbols, hfile]
      rw [hcd]
      exact exportSymbolsResolved_cleanup env abs (path.str ++ "/symbols.svg") (some path.str) h
    · have hexp : export_svg_symbols env abs path
          = exportSymbolsResolved env abs path.str path.parent := by
        simp [export_svg_symbols, hfile]
      rw [hexp] at h ⊢
      have hcd : cacheDirOfSymbols path = path.parent.getD "." ++ "/.cache-symbols" := by
        simp [cacheDirOfSymbols, hfile]
      rw [hcd]
      exact exportSymbolsResolved_cleanup env abs path.str path.parent h
  · intro env abs formats path v hs hne hok
    have hlen1 : ¬ (1 < abs.length) := by
      intro hl
      have hfst : (export_regular_formats env abs formats path).fst
          = Except.error (ExportErr.ambiguousArtboards path.str abs.length) := by
        simp [export_regular_formats, hs, hl]
      rw [hfst] at hok
      exact Except.noConfusion hok
    have hlen2 : ¬ (1 < formats.length) := by
      intro hl
      have hfst : (export_regular_formats env abs formats path).fst
          = Except.error (ExportErr.ambiguousFormats path.str formats.length) := by
        simp [export_regular_formats, hs, hlen1, hl]
      rw [hfst] at hok
      exact Except.noConfusion hok
    by_cases hE : env.ensureDirOk (path.parent.getD "." ++ "/.cache") = true
    · cases formats with
      | nil => exact absurd rfl hne
      | cons fmt rest =>
        have hrest : rest = [] := by
          cases rest with
          | nil => rfl
          | cons a b =>
            exfalso
            refine hlen2 ?_
            simp only [List.length_cons]
            omega
        subst hrest
        have hstep : export_regular_formats env abs [fmt] path
            = ((regularFormatsLoop env (joinSep "," (abs.map (fun ab => ab.uid))) abs path
                  (path.parent.getD "." ++ "/.cache")
                  (some (path.parent.getD "." ++ "/.cache")) [fmt] []).fst,
               FsEffect.ensureDir (path.parent.getD "." ++ "/.cache")
                 :: (regularFormatsLoop env (joinSep "," (abs.map (fun ab => ab.uid))) abs path
                  (path.parent.getD "." ++ "/.cache")
                  (some (path.parent.getD "." ++ "/.cache")) [fmt] []).snd) := by
          simp [export_regular_formats, hs, hlen1, hE]
        rw [hstep] at hok ⊢
        simp only [] at hok ⊢
        refine List.mem_cons_of_mem _ ?_
        exact regularFormatsLoop_removes env _ abs path _ _ fmt [] [] v hok
    · have hEf : env.ensureDirOk (path.parent.getD "." ++ "/.cache") = false := by simpa using hE
      have hfst : (export_regular_formats env abs formats path).fst
          = Except.error (ExportErr.ensureDirFailed (path.parent.getD "." ++ "/.cache")) := by
        simp [export_regular_formats, hs, hlen1, hlen2, hEf]
      rw [hfst] at hok
      exact Except.noConfusion hok

/-- C6 counterexample: in a run where the cache directory is created and
sketchtool succeeds but the expected artifact is missing, the call returns
the artifact-lookup error with the created `.cache-symbols` directory still
on disk — no removal (by the deletion guard or otherwise) appears in the
effect trace. -/
theorem export_svg_symbols_cache_left_behind :
    (export_svg_symbols
        ⟨fun _ => true, fun _ => true, fun _ => false, fun _ => none,
          fun _ _ => none, fun _ _ => true, fun _ => true⟩
        [⟨"u1", "ico"⟩] ⟨"out/symbols.svg", "svg", some "out"⟩).fst
      = Except.error (ExportErr.artifactNotFound "out/.cache-symbols/ico.svg") ∧
    FsEffect.ensureDir "out/.cache-symbols"
      ∈ (export_svg_symbols
        ⟨fun _ => true, fun _ => true, fun _ => false, fun _ => none,
          fun _ _ => none, fun _ _ => true, fun _ => true⟩
        [⟨"u1", "ico"⟩] ⟨"out/symbols.svg", "svg", some "out"⟩).snd ∧
    FsEffect.removeDirAll "out/.cache-symbols"
      ∉ (export_svg_symbols
        ⟨fun _ => true, fun _ => true, fun _ => false, fun _ => none,
          fun _ _ => none, fun _ _ => true, fun _ => true⟩
        [⟨"u1", "ico"⟩] ⟨"out/symbols.svg", "svg", some "out"⟩).snd := by
  refine ⟨rfl, ?_, ?_⟩
  · decide
  · decide

set_option maxRecDepth 4000 in
/-- A concrete successful symbol-export run whose trace does remove the
`.cache-symbols` directory. -/
theorem export_cache_cleanup_amended_witness :
    FsEffect.removeDirAll
        (cacheDirOfSymbols ⟨"out/symbols.svg", "svg", some "out"⟩)
      ∈ (export_svg_symbols
        ⟨fun _ => true, fun _ => true, fun _ => true,
          fun _ => some "<svg viewBox=\"0 0 24 24\"><g id=\"ico/a\"><path d=\"M0 0\"/></g></svg>",
          fun _ _ => none, fun _ _ => true, fun _ => true⟩
        [⟨"u1", "ico"⟩] ⟨"out/symbols.svg", "svg", some "out"⟩).snd :=
  export_cache_cleanup_amended.1
    ⟨fun _ => true, fun _ => true, fun _ => true,
      fun _ => some "<svg viewBox=\"0 0 24 24\"><g id=\"ico/a\"><path d=\"M0 0\"/></g></svg>",
      fun _ _ => none, fun _ _ => true, fun _ => true⟩
    [⟨"u1", "ico"⟩] ⟨"out/symbols.svg", "svg", some "out"⟩
    (Or.inl ⟨["out/symbols.svg"], by decide⟩)

theorem dropTrailing_nil_all (p : Char → Bool) (l : List Char)
    (h : dropTrailing p l = []) : ∀ c ∈ l, p c = true := by
  induction l with
  | nil => intro c hc; cases hc
  | cons a rest ih =>
    intro c hc
    by_cases hr : (dropTrailing p rest).isEmpty = true
    · have hrest : dropTrailing p rest = [] := by simpa [List.isEmpty_iff] using hr
      by_cases hp : p a = true
      · cases hc with
        | head => exact hp
        | tail _ hm => exact ih hrest c hm
      · rw [show dropTrailing p (a :: rest) = [a] from by simp [dropTrailing, hr, hp]] at h
        cases h
    · rw [show dropTrailing p (a :: rest) = a :: dropTrailing p rest from by
        simp [dropTrailing, hr]] at h
      cases h

theorem trimL_nil_all (l : List Char) (h : trimL l = []) : ∀ c ∈ l, wsChar c = true := by
  intro c hc
  have hsplit : l.takeWhile wsChar ++ l.dropWhile wsChar = l :=
    List.takeWhile_append_dropWhile wsChar l
  rw [← hsplit] at hc
  rcases List.mem_append.mp hc with hm | hm
  · exact List.mem_takeWhile_imp hm
  · exact dropTrailing_nil_all wsChar (l.dropWhile wsChar) h c hm

theorem all_ws_trimL_nil (l : List Char) (h : ∀ c ∈ l, wsChar c = true) : trimL l = [] := by
  have hdw : l.dropWhile wsChar = [] := by
    rw [List.dropWhile_eq_nil_iff]
    exact h
  unfold trimL trimStartL
  rw [hdw]
  rfl

theorem trimL_ne_of_mem (l : List Char) (c : Char) (hc : c ∈ l) (hw : wsChar c = false) :
    trimL l ≠ [] := by
  intro h
  have := trimL_nil_all l h c hc
  rw [hw] at this
  cases this

theorem exists_nonws_of_trimL_ne (l : List Char) (h : trimL l ≠ []) :
    ∃ c ∈ l, wsChar c = false := by
  by_contra hall
  push_neg at hall
  refine h (all_ws_trimL_nil l ?_)
  intro c hc
  have := hall c hc
  simpa using this

theorem splitNL_ne_nil (l : List Char) : splitNL l ≠ [] := by
  cases l with
  | nil => simp [splitNL]
  | cons c rest =>
    by_cases hc : c = '\n'
    · simp [splitNL, hc]
    · simp only [splitNL, hc, if_false]
      cases splitNL rest with
      | nil => simp
      | cons p ps => simp

theorem mem_splitNL (l : List Char) (c : Char) (hc : c ∈ l) (hnl : ¬ c = '\n') :
    ∃ part ∈ splitNL l, c ∈ part := by
  induction l with
  | nil => cases hc
  | cons a rest ih =>
    by_cases ha : a = '\n'
    · have hm : c ∈ rest := by
        cases hc with
        | head => exact absurd ha (by rw [← ha] at hnl; exact fun hh => hnl rfl)
        | tail _ hm => exact hm
      obtain ⟨part, hp, hcp⟩ := ih hm
      exact ⟨part, by simp [splitNL, ha, hp], hcp⟩
    · cases hsp : splitNL rest with
      | nil => exact absurd hsp (splitNL_ne_nil rest)
      | cons p ps =>
        cases hc with
        | head =>
          refine ⟨c :: p, ?_, List.mem_cons_self c p⟩
          simp [splitNL, ha, hsp]
        | tail _ hm =>
          obtain ⟨part, hp, hcp⟩ := ih hm
          rw [hsp] at hp
          cases hp with
          | head =>
            refine ⟨a :: p, ?_, List.mem_cons_of_mem a hcp⟩
            simp [splitNL, ha, hsp]
          | tail _ hp2 =>
            refine ⟨part, ?_, hcp⟩
            simp only [splitNL, ha, if_false, hsp, List.mem_cons]
            exact Or.inr hp2

theorem mem_linesOf (l : List Char) (c : Char) (hc : c ∈ l) (hw : wsChar c = false) :
    ∃ line ∈ linesOf l, c ∈ line := by
  have hnl : ¬ c = '\n' := by
    intro h
    rw [h] at hw
    simp [wsChar] at hw
  have hcr : ¬ c = '\r' := by
    intro h
    rw [h] at hw
    simp [wsChar] at hw
  have hlne : l ≠ [] := by
    intro h
    rw [h] at hc
    cases hc
  obtain ⟨part, hp, hcp⟩ := mem_splitNL l c hc hnl
  have hpne : part ≠ [] := by
    intro h
    rw [h] at hcp
    cases hcp
  unfold linesOf
  rw [if_neg hlne]
  have hstep : ∃ part2 ∈ (if (splitNL l).getLast? = some []
      then (splitNL l).dropLast else splitNL l), c ∈ part2 := by
    by_cases hlast : (splitNL l).getLast? = some []
    · rw [if_pos hlast]
      have hne := splitNL_ne_nil l
      have hgl : (splitNL l).getLast hne = [] := by
        have := List.getLast?_eq_getLast (splitNL l) hne
        rw [this] at hlast
        exact Option.some.inj hlast
      have hdec : (splitNL l).dropLast ++ [[]] = splitNL l := by
        have := List.dropLast_append_getLast hne
        rw [hgl] at this
        exact this
      rw [← hdec] at hp
      rcases List.mem_append.mp hp with hin | hin
      · exact ⟨part, hin, hcp⟩
      · exfalso
        have : part = [] := by simpa using hin
        exact hpne this
    · rw [if_neg hlast]
      exact ⟨part, hp, hcp⟩
  obtain ⟨part2, hp2, hcp2⟩ := hstep
  refine ⟨if part2.getLast? = some '\r' then part2.dropLast else part2,
    List.mem_map_of_mem _ hp2, ?_⟩
  by_cases hr : part2.getLast? = some '\r'
  · rw [if_pos hr]
    have hne2 : part2 ≠ [] := by
      intro h
      rw [h] at hcp2
      cases hcp2
    have hgl : part2.getLast hne2 = '\r' := by
      have := List.getLast?_eq_getLast part2 hne2
      rw [this] at hr
      exact Option.some.inj hr
    have hdec : part2.dropLast ++ ['\r'] = part2 := by
      have := List.dropLast_append_getLast hne2
      rw [hgl] at this
      exact this
    rw [← hdec] at hcp2
    rcases List.mem_append.mp hcp2 with hin | hin
    · exact hin
    · exfalso
      exact hcr (by simpa using hin)
  · rw [if_neg hr]
    exact hcp2

theorem mem_joinNL (parts : List (List Char)) (part : List Char) (c : Char)
    (hp : part ∈ parts) (hc : c ∈ part) : c ∈ joinNL parts := by
  induction parts with
  | nil => cases hp
  | cons q rest ih =>
    cases rest with
    | nil =>
      have : part = q := by simpa using hp
      rw [this] at hc
      simpa [joinNL] using hc
    | cons r rs =>
      have hstep : joinNL (q :: r :: rs) = q ++ '\n' :: joinNL (r :: rs) := rfl
      rw [hstep]
      cases hp with
      | head => exact List.mem_append.mpr (Or.inl hc)
      | tail _ hm =>
        refine List.mem_append.mpr (Or.inr ?_)
        exact List.mem_cons_of_mem _ (ih hm)

theorem indent_preserves_nonblank (s : String) (h : strTrim s ≠ "") :
    strTrim (indent_content s 4) ≠ "" := by
  have htr : trimL s.data ≠ [] := by
    intro hx
    refine h ?_
    show String.mk (trimL s.data) = ""
    rw [hx]
  obtain ⟨c, hc, hw⟩ := exists_nonws_of_trimL_ne s.data htr
  obtain ⟨line, hline, hcl⟩ := mem_linesOf s.data c hc hw
  have hnbP : ¬ ((trimL line).isEmpty = true) := by
    intro hx
    exact trimL_ne_of_mem line c hcl hw (by simpa [List.isEmpty_iff] using hx)
  have hcts : c ∈ trimStartL line := by
    have hsplit : line.takeWhile wsChar ++ line.dropWhile wsChar = line :=
      List.takeWhile_append_dropWhile wsChar line
    rw [← hsplit] at hcl
    rcases List.mem_append.mp hcl with hm | hm
    · exfalso
      have := List.mem_takeWhile_imp hm
      rw [hw] at this
      cases this
    · exact hm
  have hne : ¬ (s.data.isEmpty = true) := by
    intro hx
    have : s.data = [] := by simpa [List.isEmpty_iff] using hx
    rw [this] at hc
    cases hc
  have hout : indentContentL s.data 4
      = joinNL ((linesOf s.data).map (fun line =>
          if (trimL line).isEmpty then []
          else spacesL 4 ++ spacesL (indentB line
            - listMin (((linesOf s.data).filter
                (fun l2 => !(trimL l2).isEmpty)).map indentB)) ++ trimStartL line)) := by
    simp [indentContentL, hne]
  have hmemf : c ∈ (fun line =>
      if (trimL line).isEmpty then []
      else spacesL 4 ++ spacesL (indentB line
        - listMin (((linesOf s.data).filter
            (fun l2 => !(trimL l2).isEmpty)).map indentB)) ++ trimStartL line) line := by
    simp only [if_neg hnbP]
    exact List.mem_append.mpr (Or.inr hcts)
  have hcj : c ∈ indentContentL s.data 4 := by
    rw [hout]
    exact mem_joinNL _ _ c (List.mem_map_of_mem _ hline) hmemf
  have : trimL (indentContentL s.data 4) ≠ [] := trimL_ne_of_mem _ c hcj hw
  intro hx
  refine this ?_
  have hx2 : String.mk (trimL (indent_content s 4).data) = "" := hx
  have hdata : (indent_content s 4).data = indentContentL s.data 4 := rfl
  rw [hdata] at hx2
  have : trimL (indentContentL s.data 4) = ("" : String).data := congrArg String.data hx2
  simpa using this

/-- C3: `convert_svg_to_symbol` returns `none` exactly when the document
fails to parse, the root lacks a `viewBox` attribute, the root has no child
nodes, or the id-canonicalized serialized inner content is empty after
whitespace trimming; otherwise it returns a symbol that carries the verbatim
`viewBox` value and the id-canonicalized, re-indented body. -/
theorem convert_svg_to_symbol_characterization (svg_content symbol_id : String) :
    (convert_svg_to_symbol svg_content symbol_id = none ↔
      parseDocument svg_content = none ∨
      (∃ root, parseDocument svg_content = some root ∧
        getAttr "viewBox" (rootAttributes root) = none) ∨
      (∃ root, parseDocument svg_content = some root ∧ rootChildren root = []) ∨
      (∃ root, parseDocument svg_content = some root ∧
        strTrim (nodes_to_string (transform_nodes_id_attributes (rootChildren root)
          canonicalize_name)) = "")) ∧
    (∀ s, convert_svg_to_symbol svg_content symbol_id = some s →
      ∃ root vb, parseDocument svg_content = some root ∧
        getAttr "viewBox" (rootAttributes root) = some vb ∧
        s = "  <symbol id=\"" ++ symbol_id ++ "\" viewBox=\"" ++ vb ++ "\">\n"
          ++ indent_content (nodes_to_string (transform_nodes_id_attributes
              (rootChildren root) canonicalize_name)) 4
          ++ "\n  </symbol>") := by
  cases hdoc : parseDocument svg_content with
  | none =>
    have hc : convert_svg_to_symbol svg_content symbol_id = none := by
      simp [convert_svg_to_symbol, xmls_extract_root_attribute, hdoc]
    refine ⟨⟨fun _ => Or.inl rfl, fun _ => hc⟩, ?_⟩
    intro s hs
    rw [hc] at hs
    exact Option.noConfusion hs
  | some root =>
    cases hvb : getAttr "viewBox" (rootAttributes root) with
    | none =>
      have hc : convert_svg_to_symbol svg_content symbol_id = none := by
        simp [convert_svg_to_symbol, xmls_extract_root_attribute, hdoc, hvb]
      refine ⟨⟨fun _ => Or.inr (Or.inl ⟨root, rfl, hvb⟩), fun _ => hc⟩, ?_⟩
      intro s hs
      rw [hc] at hs
      exact Option.noConfusion hs
    | some vb =>
      by_cases hemp : (rootChildren root).isEmpty = true
      · have hc : convert_svg_to_symbol svg_content symbol_id = none := by
          simp [convert_svg_to_symbol, xmls_extract_root_attribute,
            extract_root_inner_nodes, hdoc, hvb, hemp]
        refine ⟨⟨fun _ => Or.inr (Or.inr (Or.inl ⟨root, rfl, ?_⟩)), fun _ => hc⟩, ?_⟩
        · simpa [List.isEmpty_iff] using hemp
        · intro s hs
          rw [hc] at hs
          exact Option.noConfusion hs
      · by_cases htr : strTrim (nodes_to_string (transform_nodes_id_attributes
            (rootChildren root) canonicalize_name)) = ""
        · have hc : convert_svg_to_symbol svg_content symbol_id = none := by
            simp [convert_svg_to_symbol, xmls_extract_root_attribute,
              extract_root_inner_nodes, hdoc, hvb, hemp, htr]
          refine ⟨⟨fun _ => Or.inr (Or.inr (Or.inr ⟨root, rfl, htr⟩)), fun _ => hc⟩, ?_⟩
          intro s hs
          rw [hc] at hs
          exact Option.noConfusion hs
        · have hind : ¬ (strTrim (indent_content (nodes_to_string
              (transform_nodes_id_attributes (rootChildren root) canonicalize_name)) 4) = "") :=
            indent_preserves_nonblank _ htr
          have hc : convert_svg_to_symbol svg_content symbol_id
              = some ("  <symbol id=\"" ++ symbol_id ++ "\" viewBox=\"" ++ vb ++ "\">\n"
                ++ indent_content (nodes_to_string (transform_nodes_id_attributes
                    (rootChildren root) canonicalize_name)) 4
                ++ "\n  </symbol>") := by
            simp [convert_svg_to_symbol, xmls_extract_root_attribute,
              extract_root_inner_nodes, hdoc, hvb, hemp, htr, hind]
          constructor
          · rw [hc]
            constructor
            · intro hno
              exact Option.noConfusion hno
            · intro hrhs
              exfalso
              rcases hrhs with hno | ⟨r, hr, hvb2⟩ | ⟨r, hr, hch2⟩ | ⟨r, hr, htr2⟩
              · exact Option.noConfusion hno
              · cases Option.some.inj hr
                rw [hvb] at hvb2
                exact Option.noConfusion hvb2
              · cases Option.some.inj hr
                rw [hch2] at hemp
                exact hemp rfl
              · cases Option.some.inj hr
                exact htr htr2
          · intro s hs
            rw [hc] at hs
            exact ⟨root, vb, rfl, hvb, (Option.some.inj hs).symm⟩

/-- A concrete conversion: a parsed document with a `viewBox`, one nested
id-bearing group, and non-empty content converts to the expected symbol,
carrying the verbatim `viewBox` and the canonicalized body. -/
theorem convert_svg_to_symbol_witness :
    ∃ root vb, parseDocument
        "<svg viewBox=\"0 0 24 24\"><g id=\"ico/a\"><path d=\"M0 0\"/></g></svg>"
        = some root ∧
      getAttr "viewBox" (rootAttributes root) = some vb ∧
      ("  <symbol id=\"my-id\" viewBox=\"0 0 24 24\">\n    <g id=\"ico-a\">\n      <path d=\"M0 0\" />\n    </g>\n  </symbol>" : String)
        = "  <symbol id=\"" ++ "my-id" ++ "\" viewBox=\"" ++ vb ++ "\">\n"
          ++ indent_content (nodes_to_string (transform_nodes_id_attributes
              (rootChildren root) canonicalize_name)) 4
          ++ "\n  </symbol>" :=
  (convert_svg_to_symbol_characterization
      "<svg viewBox=\"0 0 24 24\"><g id=\"ico/a\"><path d=\"M0 0\"/></g></svg>"
      "my-id").2
    "  <symbol id=\"my-id\" viewBox=\"0 0 24 24\">\n    <g id=\"ico-a\">\n      <path d=\"M0 0\" />\n    </g>\n  </symbol>"
    (by decide)

/-- C10 counterexample: on a document that is malformed after the root
start tag (the root element is never closed), the streaming extractor
commits to the first start tag and returns the attribute, while the
tree-based extractor fails to parse and returns `none` — the two are not
interchangeable on malformed documents. -/
theorem extract_root_attribute_divergence :
    xmls_stream_extract_root_attribute "<svg viewBox=\"1\">" "viewBox" = some "1" ∧
    xmls_extract_root_attribute "<svg viewBox=\"1\">" "viewBox" = none := by
  exact ⟨by decide, by decide⟩

theorem extract_eq_getAttr (attrs : List (String × String)) (attr : String) :
    extract_attribute_from_element attrs attr = getAttr attr attrs := by
  induction attrs with
  | nil => rfl
  | cons a rest ih =>
    cases a with
    | mk k v =>
      by_cases hk : k = attr
      · subst hk
        simp [extract_attribute_from_element, getAttr]
      · have hk2 : ¬ (attr = k) := fun hx => hk hx.symm
        simp [extract_attribute_from_element, getAttr, hk, hk2, ih]

theorem firstStartAttr_of_parseRoot (events : List XmlEvent) (root : XMLNode) (attr : String)
    (h : parseRoot events = some root) :
    firstStartAttr events attr = getAttr attr (rootAttributes root) := by
  induction events with
  | nil => simp [parseRoot] at h
  | cons e rest ih =>
    cases e with
    | comment s =>
      have h2 : parseRoot rest = some root := by simpa [parseRoot] using h
      simpa [firstStartAttr] using ih h2
    | procInst t d =>
      have h2 : parseRoot rest = some root := by simpa [parseRoot] using h
      simpa [firstStartAttr] using ih h2
    | text s =>
      by_cases hws : (trimL s.data).isEmpty = true
      · have h2 : parseRoot rest = some root := by simpa [parseRoot, hws] using h
        simpa [firstStartAttr] using ih h2
      · simp [parseRoot, hws] at h
    | endTag n => simp [parseRoot] at h
    | cdata s => simp [parseRoot] at h
    | emptyTag n a =>
      by_cases hm : allMisc rest = true
      · have hroot : XMLNode.element n a [] = root := by
          have h2 := h
          simp only [parseRoot, hm, if_true] at h2
          exact Option.some.inj (by simpa using h2)
        rw [← hroot]
        simp [firstStartAttr, rootAttributes, extract_eq_getAttr]
      · simp [parseRoot, hm] at h
    | start n a =>
      cases hpn : parseNodes (rest.length + 1) rest with
      | none => simp [parseRoot, hpn] at h
      | some pr =>
        obtain ⟨kids, restAfter⟩ := pr
        cases restAfter with
        | nil => simp [parseRoot, hpn] at h
        | cons e2 rest2 =>
          cases e2 with
          | endTag m =>
            by_cases hcond : m = n ∧ allMisc rest2 = true
            · have hroot : XMLNode.element n a kids = root := by
                have h2 := h
                simp only [parseRoot, hpn, hcond, if_true] at h2
                exact Option.some.inj (by simpa using h2)
              rw [← hroot]
              simp [firstStartAttr, rootAttributes, extract_eq_getAttr]
            · simp [parseRoot, hpn, hcond] at h
          | start n2 a2 => simp [parseRoot, hpn] at h
          | emptyTag n2 a2 => simp [parseRoot, hpn] at h
          | text s2 => simp [parseRoot, hpn] at h
          | cdata s2 => simp [parseRoot, hpn] at h
          | comment s2 => simp [parseRoot, hpn] at h
          | procInst t2 d2 => simp [parseRoot, hpn] at h

/-- C10 (amended): whenever the whole document parses as well-formed XML
with a single root (the situation the system's own use guarantees, since
conversion requires the tree parse to succeed), the tree-based and the
streaming root-attribute extractors return the same result; on documents
malformed after the root start tag they may differ, the streaming one
committing to the first start tag. -/
theorem extract_root_attribute_refinement (xml_content attr_name : String)
    (h : ∃ root, parseDocument xml_content = some root) :
    xmls_extract_root_attribute xml_content attr_name
      = xmls_stream_extract_root_attribute xml_content attr_name := by
  obtain ⟨root, hroot⟩ := h
  have hcond : ¬ ((lexDocument xml_content).snd = true) := by
    intro he
    have : parseDocument xml_content = none := by
      simp [parseDocument, he]
    rw [this] at hroot
    exact Option.noConfusion hroot
  have hparse : parseRoot (lexDocument xml_content).fst = some root := by
    have h2 := hroot
    simp only [parseDocument] at h2
    rw [if_neg (by simpa using hcond)] at h2
    exact h2
  have h1 : xmls_extract_root_attribute xml_content attr_name
      = getAttr attr_name (rootAttributes root) := by
    simp [xmls_extract_root_attribute, hroot]
  have h2 : xmls_stream_extract_root_attribute xml_content attr_name
      = getAttr attr_name (rootAttributes root) :=
    firstStartAttr_of_parseRoot _ root attr_name hparse
  rw [h1, h2]

set_option maxRecDepth 4000 in
/-- A concrete well-formed document on which the two extractors agree. -/
theorem extract_root_attribute_refinement_witness :
    xmls_extract_root_attribute "<svg viewBox=\"0 0 24 24\" width=\"24\"></svg>" "viewBox"
      = xmls_stream_extract_root_attribute
          "<svg viewBox=\"0 0 24 24\" width=\"24\"></svg>" "viewBox" :=
  extract_root_attribute_refinement "<svg viewBox=\"0 0 24 24\" width=\"24\"></svg>" "viewBox"
    ⟨XMLNode.element "svg" [("viewBox", "0 0 24 24"), ("width", "24")] [], by rfl⟩
